import Mathlib

/-!
terraform-provider-s3extra: the `s3extra_immutable_assets` resource.

A shallow embedding of `internal/provider/file_client.go` and
`internal/provider/s3extra_immutable_assets.go`.

* Go `string` values are Lean strings (so always valid UTF-8); `[]byte(s)` is their UTF-8
  encoding, a list of natural numbers below 256.
* Go `map[string]T` is an association list with pairwise distinct keys; the order in which
  `range` visits a map, and the order in which goroutines finish, is an explicit argument
  (`rangeOrder`, which reaches every permutation).
* The filesystem, the glob library, the MIME table and the object store are arguments
  (`World`); every call made to them is recorded in a list of `Event`s. What the client of
  the object store sends as the content type of a put-object request is `contentTypeSent`.
* `crypto/sha256` and `encoding/hex` are written out, so that identities and digests can be
  evaluated.
-/

set_option maxRecDepth 100000

namespace S3Extra

/-! ## crypto/sha256 and encoding/hex -/

/-- Round constants of SHA-256 (FIPS 180-4, section 4.2.2), in decimal. -/
def sha256K : List Nat :=
  [1116352408, 1899447441, 3049323471, 3921009573, 961987163, 1508970993,
   2453635748, 2870763221, 3624381080, 310598401, 607225278, 1426881987,
   1925078388, 2162078206, 2614888103, 3248222580, 3835390401, 4022224774,
   264347078, 604807628, 770255983, 1249150122, 1555081692, 1996064986,
   2554220882, 2821834349, 2952996808, 3210313671, 3336571891, 3584528711,
   113926993, 338241895, 666307205, 773529912, 1294757372, 1396182291,
   1695183700, 1986661051, 2177026350, 2456956037, 2730485921, 2820302411,
   3259730800, 3345764771, 3516065817, 3600352804, 4094571909, 275423344,
   430227734, 506948616, 659060556, 883997877, 958139571, 1322822218,
   1537002063, 1747873779, 1955562222, 2024104815, 2227730452, 2361852424,
   2428436474, 2756734187, 3204031479, 3329325298]

/-- A 32-bit word: a natural number reduced modulo 2^32. -/
def w32 (x : Nat) : Nat := x % 4294967296

/-- Rotation of a 32-bit word to the right by n bits. -/
def rotr (x n : Nat) : Nat := w32 ((x >>> n) ||| (x <<< (32 - n)))

/-- The eight working words of SHA-256. -/
structure Sha256State where
  a : Nat
  b : Nat
  c : Nat
  d : Nat
  e : Nat
  f : Nat
  g : Nat
  h : Nat
deriving DecidableEq, Repr

/-- Initial hash value of SHA-256 (FIPS 180-4, section 5.3.3), in decimal. -/
def sha256Init : Sha256State :=
  ⟨1779033703, 3144134277, 1013904242, 2773480762,
   1359893119, 2600822924, 528734635, 1541459225⟩

/-- Padding of a message: a 0x80 byte, zero bytes up to 56 modulo 64, then the length in bits
as eight big-endian bytes. -/
def sha256Pad (msg : List Nat) : List Nat :=
  let n := msg.length
  let zeros := (119 - n % 64) % 64
  let bits := (8 * n) % 18446744073709551616
  msg.map (· % 256) ++ [128] ++ List.replicate zeros 0 ++
    (List.range 8).map (fun i => (bits >>> (8 * (7 - i))) % 256)

/-- Big-endian 32-bit word at byte offset i of a byte list. -/
def beWord (bs : List Nat) (i : Nat) : Nat :=
  bs.getD i 0 * 16777216 + bs.getD (i + 1) 0 * 65536 + bs.getD (i + 2) 0 * 256 + bs.getD (i + 3) 0

/-- Message schedule of one 64-byte block: its sixteen words extended to sixty-four. -/
def sha256Schedule (block : List Nat) : List Nat :=
  (List.range 48).foldl
    (fun w _ =>
      let i := w.length
      let w15 := w.getD (i - 15) 0
      let w2 := w.getD (i - 2) 0
      let s0 := (rotr w15 7 ^^^ rotr w15 18) ^^^ (w15 >>> 3)
      let s1 := (rotr w2 17 ^^^ rotr w2 19) ^^^ (w2 >>> 10)
      w ++ [w32 (w.getD (i - 16) 0 + s0 + w.getD (i - 7) 0 + s1)])
    ((List.range 16).map (fun j => beWord block (4 * j)))

/-- One round of the compression function, with round constant k and schedule word w. -/
def sha256Round (s : Sha256State) (k w : Nat) : Sha256State :=
  let S1 := (rotr s.e 6 ^^^ rotr s.e 11) ^^^ rotr s.e 25
  let ch := (s.e &&& s.f) ^^^ ((4294967295 - s.e) &&& s.g)
  let t1 := w32 (s.h + S1 + ch + k + w)
  let S0 := (rotr s.a 2 ^^^ rotr s.a 13) ^^^ rotr s.a 22
  let maj := ((s.a &&& s.b) ^^^ (s.a &&& s.c)) ^^^ (s.b &&& s.c)
  let t2 := w32 (S0 + maj)
  ⟨w32 (t1 + t2), s.a, s.b, s.c, w32 (s.d + t1), s.e, s.f, s.g⟩

/-- Compression of one block into the running state. -/
def sha256Block (s : Sha256State) (block : List Nat) : Sha256State :=
  let t := (List.zip sha256K (sha256Schedule block)).foldl (fun st kw => sha256Round st kw.1 kw.2) s
  ⟨w32 (s.a + t.a), w32 (s.b + t.b), w32 (s.c + t.c), w32 (s.d + t.d),
   w32 (s.e + t.e), w32 (s.f + t.f), w32 (s.g + t.g), w32 (s.h + t.h)⟩

/-- The four big-endian bytes of a 32-bit word. -/
def beBytes (x : Nat) : List Nat :=
  [x / 16777216 % 256, x / 65536 % 256, x / 256 % 256, x % 256]

/-- Go `sha256.Sum256`: the 32-byte SHA-256 digest of a byte string. -/
def Sum256 (msg : List Nat) : List Nat :=
  let p := sha256Pad msg
  let s := (List.range (p.length / 64)).foldl
    (fun st i => sha256Block st ((p.drop (64 * i)).take 64)) sha256Init
  beBytes s.a ++ beBytes s.b ++ beBytes s.c ++ beBytes s.d ++
    beBytes s.e ++ beBytes s.f ++ beBytes s.g ++ beBytes s.h

/-- Digit table of Go `encoding/hex`. -/
def hextable : List Char := "0123456789abcdef".toList

/-- The two hex digits `hextable[v>>4]`, `hextable[v&0x0f]` of one byte. -/
def hexByte (v : Nat) : List Char :=
  [hextable.getD (v % 256 / 16) '0', hextable.getD (v % 16) '0']

/-- Go `hex.EncodeToString`: two lowercase hex digits per byte. -/
def EncodeToString (bs : List Nat) : String :=
  String.mk (bs.flatMap hexByte)

/-! ## Go strings and maps -/

/-- UTF-8 bytes of one character, as a Go string stores it. -/
def utf8Char (c : Char) : List Nat :=
  let v := c.toNat
  if v < 128 then [v]
  else if v < 2048 then [192 + v / 64, 128 + v % 64]
  else if v < 65536 then [224 + v / 4096, 128 + v / 64 % 64, 128 + v % 64]
  else [240 + v / 262144, 128 + v / 4096 % 64, 128 + v / 64 % 64, 128 + v % 64]

/-- Go conversion `[]byte(s)`. -/
def bytes (s : String) : List Nat := s.toList.flatMap utf8Char

/-- Go `map[string]T`: entries with pairwise distinct keys. -/
abbrev GoMap (β : Type) := List (String × β)

/-- Go `m[k] = v`: overwrite the entry of k, or add one. -/
def GoMap.set {β : Type} : GoMap β → String → β → GoMap β
  | [], k, v => [(k, v)]
  | (k0, v0) :: m, k, v => if k0 = k then (k, v) :: m else (k0, v0) :: GoMap.set m k v

/-- Go `m[k]`, with the presence flag as an option. -/
def GoMap.get {β : Type} : GoMap β → String → Option β
  | [], _ => none
  | (k0, v0) :: m, k => if k0 = k then some v0 else GoMap.get m k

/-- The keys of a map. -/
def GoMap.keys {β : Type} (m : GoMap β) : List String := m.map Prod.fst

/-- An order of visit: at each step the entry at index `k % remaining` of the entries not yet
visited is taken; when the picks run out the rest follows in place. Every list of picks
gives a permutation, so this covers every order `range` over a map (or a scheduler over
goroutines) can produce. -/
def rangeOrder {α : Type} : List Nat → List α → List α
  | _, [] => []
  | [], x :: xs => x :: xs
  | k :: ks, x :: xs =>
    let i := k % (xs.length + 1)
    (x :: xs).getD i x :: rangeOrder ks ((x :: xs).eraseIdx i)

/-! ## The resource data and its identity (`s3extra_immutable_assets.go`) -/

/-- Go `string`. -/
abbrev GoString := String

/-- Framework `types.String`: a value with its unknown and null flags. -/
structure types.String where
  Unknown : Bool
  Null : Bool
  Value : GoString
deriving DecidableEq, Repr

/-- The `file_configuration` block. -/
structure fileConfiguration where
  CacheControl : types.String
deriving DecidableEq, Repr

/-- The resource record decoded from configuration, plan or state. -/
structure s3extraImmutableAssetsData where
  Id : types.String
  Bucket : types.String
  Glob : types.String
  Prefix : types.String
  FileConfiguration : Option fileConfiguration
  Tags : GoMap String
  FileHashes : GoMap String
deriving DecidableEq, Repr

/-- The string `fmt.Sprintf("%s-%s-%s", bucket, glob, prefix)` that `id` hashes. -/
def idString (data : s3extraImmutableAssetsData) : String :=
  data.Bucket.Value ++ "-" ++ data.Glob.Value ++ "-" ++ data.Prefix.Value

/-- The method `id` of the resource: hex of the SHA-256 of the joined attributes. -/
def s3extraImmutableAssets.id (data : s3extraImmutableAssetsData) : String :=
  EncodeToString (Sum256 (bytes (idString data)))

/-! ## The file client (`file_client.go`) -/

/-- One matched file: its path, the hex digest of its content, and the content. -/
structure FileResult where
  path : String
  hash : String
  data : List Nat
deriving DecidableEq, Repr

/-- The configuration handed to the upload. -/
structure FilesetConfiguration where
  Bucket : String
  Glob : String
  Prefix : String
  FileConfiguration : Option fileConfiguration
  Tags : GoMap String
deriving DecidableEq, Repr

/-- Argument of `UploadLocalFiles`. -/
structure UploadLocalFilesInput where
  Files : GoMap FileResult
  Configuration : FilesetConfiguration
deriving DecidableEq, Repr

/-- The fields of `s3.PutObjectInput` that the client fills in. `ContentType` is always a
pointer to a string; `Tagging` and `CacheControl` may stay nil. -/
structure PutObjectInput where
  Bucket : String
  Key : String
  Body : List Nat
  ContentType : String
  Tagging : Option String
  CacheControl : Option String
deriving DecidableEq, Repr

/-- The fields of `s3.HeadObjectInput` that the client fills in. -/
structure HeadObjectInput where
  Bucket : String
  Key : String
deriving DecidableEq, Repr

/-- What `manager.Uploader.Upload` hands back for one object. -/
structure UploadOutput where
  Location : String
deriving DecidableEq, Repr

/-- A call made to the filesystem or to the object store. -/
inductive Event where
  | Glob (pattern : String)
  | ReadFile (path : String)
  | Upload (input : PutObjectInput)
  | Wait (input : HeadObjectInput) (maxWait : Nat)
deriving DecidableEq, Repr

/-- Diagnostic severity of the host framework. -/
inductive Severity where
  | Error
  | Warning
deriving DecidableEq, Repr

/-- One diagnostic of the host framework. -/
structure Diagnostic where
  Severity : Severity
  Summary : String
  Detail : String
deriving DecidableEq, Repr

/-- Framework `diag.Diagnostics`. -/
abbrev Diagnostics := List Diagnostic

/-- The collaborators outside the repository. The filesystem is a snapshot for the length of
one operation; the answers of the object store may depend on the calls made so far. -/
structure World where
  /-- `fileglob.Glob`: the matched paths, or an error. -/
  Glob : String → Except String (List String)
  /-- `ioutil.ReadFile`: the content of a path, or an error. -/
  ReadFile : String → Except String (List Nat)
  /-- The extension table behind `mime.TypeByExtension`. -/
  mimeTypes : String → Option String
  /-- `url.Values.Encode` applied to the tags. -/
  Encode : GoMap String → String
  /-- `manager.Uploader.Upload`, given the calls made before. -/
  Upload : List Event → PutObjectInput → Except String UploadOutput
  /-- `ObjectExistsWaiter.Wait`, given the calls made before; `none` is success. -/
  Wait : List Event → HeadObjectInput → Nat → Option String
  /-- The diagnostics `State.Set` reports when it encodes a record. -/
  SetDiags : s3extraImmutableAssetsData → Diagnostics

/-- The choices the Go runtime makes during one operation: the order in which the reading
goroutines finish, and the orders in which the two `range` loops visit the file map. -/
structure Schedule where
  goroutines : List Nat
  uploadRange : List Nat
  stateRange : List Nat

/-- Go `len(s)` of a string: its number of bytes. -/
def len (s : String) : Nat := (bytes s).length

/-- Go comparison `a < b` of two strings: lexicographic on their bytes. -/
def bytesLess : List Nat → List Nat → Bool
  | [], [] => false
  | [], _ :: _ => true
  | _ :: _, [] => false
  | a :: as, b :: bs => if a < b then true else if b < a then false else bytesLess as bs

/-- Insertion of a into a list, after every entry that is less than a and before the first
that is not. -/
def insertStable {α : Type} (less : α → α → Bool) (a : α) : List α → List α
  | [] => [a]
  | b :: l => if less b a then b :: insertStable less a l else a :: b :: l

/-- Go `sort.SliceStable`: ascending for `less`, entries that compare equal keep their order. -/
def SliceStable {α : Type} (less : α → α → Bool) : List α → List α
  | [] => []
  | a :: l => insertStable less a (SliceStable less l)

/-- The zero value of `FileResult`, which `make([]FileResult, n)` fills the slice with. -/
def FileResult.zero : FileResult := ⟨"", "", []⟩

/-- The comparison `filesList[i].hash < filesList[j].hash`. -/
def hashLess (x y : FileResult) : Bool := bytesLess (bytes x.hash) (bytes y.hash)

/-- `HashLocalFiles`: the slice starts with `len(files)` zero values, every file of the map
is appended, the slice is sorted by hash, and the contents are written into one SHA-256. -/
def HashLocalFiles (order : List Nat) (files : GoMap FileResult) : String :=
  let filesList := List.replicate files.length FileResult.zero
  let filesList := (rangeOrder order files).foldl (fun l kv => l ++ [kv.2]) filesList
  let filesList := SliceStable hashLess filesList
  let id := filesList.foldl (fun written file => written ++ file.data) []
  EncodeToString (Sum256 id)

/-- The content `ReadFile` gives for a path; empty when the read fails. -/
def World.content (w : World) (path : String) : List Nat :=
  match w.ReadFile path with
  | .ok data => data
  | .error _ => []

/-- The body of one reading goroutine: on a read error the error is kept if it is the first,
otherwise the file is stored under its path. -/
def readOne (w : World) (acc : GoMap FileResult × Option String) (path : String) :
    GoMap FileResult × Option String :=
  match w.ReadFile path with
  | .error err => (acc.1, if acc.2.isSome then acc.2 else some err)
  | .ok data => (acc.1.set path ⟨path, EncodeToString (Sum256 data), data⟩, acc.2)

/-- `ReadLocalFiles`, with the calls it makes. One goroutine per matched path runs to its
end, in the order `sched` gives; `group.Wait` returns the first error. -/
def ReadLocalFiles (w : World) (sched : List Nat) (globPattern : String) :
    Except String (GoMap FileResult) × List Event :=
  match w.Glob globPattern with
  | .error err => (.error err, [Event.Glob globPattern])
  | .ok paths =>
    if paths.length = 0 then
      (.error "Could not find any files that match the provided glob pattern.",
        [Event.Glob globPattern])
    else
      let run := rangeOrder sched paths
      let out := run.foldl (readOne w) ([], none)
      match out.2 with
      | some err => (.error err, Event.Glob globPattern :: run.map Event.ReadFile)
      | none => (.ok out.1, Event.Glob globPattern :: run.map Event.ReadFile)

/-- Scan of `filepath.Ext` from the end of the path: stop at a separator, return the suffix
from the first dot met. -/
def extScan : List Char → List Char → List Char
  | [], _ => []
  | c :: rest, suffix =>
    if c = '/' then [] else if c = '.' then '.' :: suffix else extScan rest (c :: suffix)

/-- Go `filepath.Ext` (with `/` as the separator). -/
def Ext (path : String) : String := String.mk (extScan path.toList.reverse [])

/-- Go `mime.TypeByExtension`: the type the table has for the extension, or "" when it has
none. -/
def TypeByExtension (w : World) (ext : String) : String :=
  match w.mimeTypes ext with
  | some t => t
  | none => ""

/-- Go `strings.Join`. -/
def Join : List String → String → String
  | [], _ => ""
  | [a], _ => a
  | a :: b :: rest, sep => a ++ sep ++ Join (b :: rest) sep

/-- The wait ceiling `time.ParseDuration("5m")`, in nanoseconds. -/
def fiveMinutes : Nat := 300000000000

/-- The variable `key` of the loop body of `UploadLocalFiles`. -/
def uploadKey (input : UploadLocalFilesInput) (file : FileResult) : String :=
  if len input.Configuration.Prefix > 0 then
    Join [input.Configuration.Prefix, file.path] "/"
  else file.path

/-- The variable `uploadInput` of the loop body, as it stands when `Upload` is called. -/
def uploadInputOf (w : World) (input : UploadLocalFilesInput) (file : FileResult) :
    PutObjectInput :=
  let contentType := TypeByExtension w (Ext file.path)
  { Bucket := input.Configuration.Bucket
    Key := uploadKey input file
    Body := file.data
    ContentType := contentType
    Tagging :=
      if input.Configuration.Tags.length > 0 then some (w.Encode input.Configuration.Tags)
      else none
    CacheControl :=
      match input.Configuration.FileConfiguration with
      | some fc =>
        if !fc.CacheControl.Null && !fc.CacheControl.Unknown then some fc.CacheControl.Value
        else none
      | none => none }

/-- The `HeadObjectInput` handed to the waiter in the loop body. -/
def headInputOf (input : UploadLocalFilesInput) (file : FileResult) : HeadObjectInput :=
  { Bucket := input.Configuration.Bucket, Key := uploadKey input file }

/-- The loop of `UploadLocalFiles` over the files still to visit. -/
def uploadLoop (w : World) (input : UploadLocalFilesInput) :
    List (String × FileResult) → List (Option UploadOutput) → List Event →
    Except String (List (Option UploadOutput)) × List Event
  | [], results, log => (.ok results, log)
  | (_, file) :: rest, results, log =>
    let uploadInput := uploadInputOf w input file
    match w.Upload log uploadInput with
    | .error err => (.error err, log ++ [Event.Upload uploadInput])
    | .ok result =>
      let log := log ++ [Event.Upload uploadInput]
      let head := headInputOf input file
      match w.Wait log head fiveMinutes with
      | some err => (.error err, log ++ [Event.Wait head fiveMinutes])
      | none =>
        uploadLoop w input rest (results ++ [some result]) (log ++ [Event.Wait head fiveMinutes])

/-- `UploadLocalFiles`, with the calls it makes appended to the calls made before. -/
def UploadLocalFiles (w : World) (order : List Nat) (input : UploadLocalFilesInput)
    (log : List Event) : Except String (List (Option UploadOutput)) × List Event :=
  uploadLoop w input (rangeOrder order input.Files)
    (List.replicate input.Files.length none) log

/-- `ToTerraformState`: the hash of every file under its map key. -/
def ToTerraformState (order : List Nat) (files : GoMap FileResult) : GoMap String :=
  (rangeOrder order files).foldl (fun hashesForPaths kv => hashesForPaths.set kv.1 kv.2.hash) []

/-- Modelled from the spec: the put-object operation of the object-store client, which is
outside the repository. The client writes the content type of the request from
`PutObjectInput.ContentType` when that string is not empty, and sends the generic binary
type `application/octet-stream` when it is empty. -/
def contentTypeSent (input : PutObjectInput) : String :=
  if len input.ContentType > 0 then input.ContentType else "application/octet-stream"

/-- The object key in the words of the specification: the path if no prefix is configured,
else the prefix, a slash, and the path. -/
def objectKey (keyPrefix path : String) : String :=
  if keyPrefix = "" then path else keyPrefix ++ "/" ++ path

/-! ## The lifecycle (`s3extra_immutable_assets.go`) -/

/-- Framework `Diagnostics.Append`: diagnostics already present are not added again. -/
def Diagnostics.Append (diags : Diagnostics) (more : List Diagnostic) : Diagnostics :=
  more.foldl (fun acc d => if d ∈ acc then acc else acc ++ [d]) diags

/-- Framework `Diagnostics.AddError`. -/
def Diagnostics.AddError (diags : Diagnostics) (summary detail : String) : Diagnostics :=
  Diagnostics.Append diags [⟨Severity.Error, summary, detail⟩]

/-- Framework `Diagnostics.AddWarning`. -/
def Diagnostics.AddWarning (diags : Diagnostics) (summary detail : String) : Diagnostics :=
  Diagnostics.Append diags [⟨Severity.Warning, summary, detail⟩]

/-- Framework `Diagnostics.HasError`. -/
def Diagnostics.HasError (diags : Diagnostics) : Bool :=
  diags.any (fun d => decide (d.Severity = Severity.Error))

/-- The result of decoding a configuration, plan or prior state into the resource record
(`Config.Get`, `Plan.Get`, `State.Get`). -/
structure Decoded where
  diags : Diagnostics
  data : s3extraImmutableAssetsData

/-- The response of an operation: its diagnostics and the persisted state (`none` when the
resource has no state). -/
structure Response where
  Diagnostics : Diagnostics
  State : Option s3extraImmutableAssetsData
deriving DecidableEq, Repr

/-- Framework `State.Set`: the state is replaced unless encoding reports an error. -/
def StateSet (w : World) (state : Option s3extraImmutableAssetsData)
    (val : s3extraImmutableAssetsData) : Diagnostics × Option s3extraImmutableAssetsData :=
  if Diagnostics.HasError (w.SetDiags val) then (w.SetDiags val, state)
  else (w.SetDiags val, some val)

/-- The helper `create`: the diagnostics and the record it was given pointers to, as it
leaves them, and the calls it made. -/
def create (w : World) (s : Schedule) (diags : Diagnostics) (data : s3extraImmutableAssetsData) :
    Diagnostics × s3extraImmutableAssetsData × List Event :=
  match ReadLocalFiles w s.goroutines data.Glob.Value with
  | (.error err, log) =>
    (Diagnostics.AddError diags "Local files error"
      ("Failed to load local files with error: " ++ err), data, log)
  | (.ok localFiles, log) =>
    match UploadLocalFiles w s.uploadRange
        { Files := localFiles
          Configuration :=
            { Bucket := data.Bucket.Value
              Glob := data.Glob.Value
              Prefix := data.Prefix.Value
              FileConfiguration := data.FileConfiguration
              Tags := data.Tags } } log with
    | (.error err, log) =>
      (Diagnostics.AddError diags "Upload error"
        ("Failed to upload files to bucket with error: " ++ err), data, log)
    | (.ok _, log) =>
      let data := { data with Id := ⟨false, false, s3extraImmutableAssets.id data⟩ }
      let data := { data with FileHashes := ToTerraformState s.stateRange localFiles }
      (diags, data, log)

/-- What an operation leaves behind: the response handed back to the host, the local
variable `diags` of the operation as it stands at the return, and the calls made. -/
structure Outcome where
  resp : Response
  diags : Diagnostics
  log : List Event

/-- `Create`: `req` is what `req.Config.Get` decodes, `resp` the response as the framework
hands it in. -/
def Create (w : World) (s : Schedule) (req : Decoded) (resp : Response) : Outcome :=
  let data := req.data
  let diags := req.diags
  let resp := { resp with Diagnostics := Diagnostics.Append resp.Diagnostics diags }
  if Diagnostics.HasError resp.Diagnostics then ⟨resp, diags, []⟩
  else
    match create w s diags data with
    | (_, data, log) =>
      let set := StateSet w resp.State data
      let diags := set.1
      let resp := { resp with State := set.2 }
      ⟨{ resp with Diagnostics := Diagnostics.Append resp.Diagnostics diags }, diags, log⟩

/-- `Read`: `req` is what `req.State.Get` decodes. -/
def Read (w : World) (s : Schedule) (req : Decoded) (resp : Response) : Outcome :=
  let data := req.data
  let diags := req.diags
  let resp := { resp with Diagnostics := Diagnostics.Append resp.Diagnostics diags }
  if Diagnostics.HasError resp.Diagnostics then ⟨resp, diags, []⟩
  else
    match ReadLocalFiles w s.goroutines data.Glob.Value with
    | (.error err, log) =>
      let diags := Diagnostics.AddError diags "Local files error"
        ("Failed to load local files with error: " ++ err)
      ⟨resp, diags, log⟩
    | (.ok localFiles, log) =>
      let data := { data with Id := ⟨false, false, s3extraImmutableAssets.id data⟩ }
      let data := { data with FileHashes := ToTerraformState s.stateRange localFiles }
      let set := StateSet w resp.State data
      let diags := set.1
      let resp := { resp with State := set.2 }
      ⟨{ resp with Diagnostics := Diagnostics.Append resp.Diagnostics diags }, diags, log⟩

/-- `Update`: `req` is what `req.Plan.Get` decodes. -/
def Update (w : World) (s : Schedule) (req : Decoded) (resp : Response) : Outcome :=
  let plan := req.data
  let diags := req.diags
  let resp := { resp with Diagnostics := Diagnostics.Append resp.Diagnostics diags }
  if Diagnostics.HasError resp.Diagnostics then ⟨resp, diags, []⟩
  else
    match create w s diags plan with
    | (_, plan, log) =>
      let set := StateSet w resp.State plan
      let diags := set.1
      let resp := { resp with State := set.2 }
      ⟨{ resp with Diagnostics := Diagnostics.Append resp.Diagnostics diags }, diags, log⟩

/-- `Delete`: `req` is what `req.State.Get` decodes; `RemoveResource` clears the state. -/
def Delete (req : Decoded) (resp : Response) : Outcome :=
  let diags := req.diags
  let resp := { resp with Diagnostics := Diagnostics.Append resp.Diagnostics diags }
  if Diagnostics.HasError resp.Diagnostics then ⟨resp, diags, []⟩
  else
    let diags := Diagnostics.AddWarning diags "Not deleting files"
      ("This resource treats its files as immutable. To delete previously managed files, " ++
        "either remove them from the bucket manually or allow them to expire based on the " ++
        "bucket lifecycle policy.")
    ⟨{ resp with State := none }, diags, []⟩

/-! ## Concrete inputs -/

/-- A configuration as `Config.Get` decodes it: no prefix, no tags, nothing computed yet. -/
def dataPlain : s3extraImmutableAssetsData :=
  { Id := ⟨false, true, ""⟩
    Bucket := ⟨false, false, "B"⟩
    Glob := ⟨false, false, "**/*.txt"⟩
    Prefix := ⟨false, true, ""⟩
    FileConfiguration := none
    Tags := []
    FileHashes := [] }

/-- The same bucket, glob and prefix with tags, a cache directive, an earlier id and earlier
file hashes. -/
def dataTagged : s3extraImmutableAssetsData :=
  { Id := ⟨false, false, "0000"⟩
    Bucket := ⟨false, false, "B"⟩
    Glob := ⟨false, false, "**/*.txt"⟩
    Prefix := ⟨false, false, ""⟩
    FileConfiguration := some ⟨⟨false, false, "max-age=0"⟩⟩
    Tags := [("hello", "world")]
    FileHashes := [("fixtures/hello.txt", "00")] }

/-- The configuration `dataPlain` with the prefix changed to "updated". -/
def dataUpdated : s3extraImmutableAssetsData :=
  { dataPlain with Prefix := ⟨false, false, "updated"⟩ }

/-- Bucket "assets-prod" with glob "*.js". -/
def dataAssetsProd : s3extraImmutableAssetsData :=
  { dataPlain with Bucket := ⟨false, false, "assets-prod"⟩, Glob := ⟨false, false, "*.js"⟩ }

/-- Bucket "assets" with glob "prod-*.js". -/
def dataAssets : s3extraImmutableAssetsData :=
  { dataPlain with Bucket := ⟨false, false, "assets"⟩, Glob := ⟨false, false, "prod-*.js"⟩ }

/-- A filesystem with three files, an extension table with two entries, and an object store
that accepts every request. -/
def worldFixtures : World :=
  { Glob := fun pattern =>
      if pattern = "**/*.{txt,js}" then
        .ok ["fixtures/hello.txt", "fixtures/static/main.js"]
      else if pattern = "**/*" then
        .ok ["fixtures/hello.txt", "fixtures/static/main.js", "LICENSE"]
      else .ok []
    ReadFile := fun path =>
      if path = "fixtures/hello.txt" then .ok (bytes "hello")
      else if path = "fixtures/static/main.js" then .ok (bytes "main()")
      else if path = "LICENSE" then .ok (bytes "MIT")
      else .error ("open " ++ path ++ ": no such file or directory")
    mimeTypes := fun ext =>
      if ext = ".txt" then some "text/plain; charset=utf-8"
      else if ext = ".js" then some "application/javascript"
      else none
    Encode := fun tags => "&".intercalate (tags.map (fun kv => kv.1 ++ "=" ++ kv.2))
    Upload := fun _ input => .ok ⟨input.Bucket ++ "/" ++ input.Key⟩
    Wait := fun _ _ _ => none
    SetDiags := fun _ => [] }

/-- The same world with an object store that refuses every upload. -/
def worldDenied : World :=
  { worldFixtures with Upload := fun _ _ => .error "AccessDenied" }

/-- The file `fixtures/hello.txt` as `ReadLocalFiles` stores it. -/
def fileHello : FileResult :=
  ⟨"fixtures/hello.txt", "2cf24dba5fb0a30e26e83b2ac5b9e29e1b161e5c1fa7425e73043362938b9824",
    bytes "hello"⟩

/-- The file `fixtures/static/main.js` as `ReadLocalFiles` stores it. -/
def fileMainJs : FileResult :=
  ⟨"fixtures/static/main.js",
    "ea1a0f9102305e02f12ac58acc01ab6365ca5bb5e56e25b917139808b9c932c1", bytes "main()"⟩

/-- The file `LICENSE`, which has no extension, as `ReadLocalFiles` stores it. -/
def fileLicense : FileResult :=
  ⟨"LICENSE", "e5dcffe836b6ec8a58e492419b550e65fb8cbdc308503979e5dacb33ac7ea3b7", bytes "MIT"⟩

/-- An upload of the three files under the prefix "updated". -/
def inputUpdated : UploadLocalFilesInput :=
  { Files := [("fixtures/hello.txt", fileHello), ("fixtures/static/main.js", fileMainJs),
      ("LICENSE", fileLicense)]
    Configuration := ⟨"B", "**/*", "updated", none, []⟩ }

/-- An upload of the three files with no prefix. -/
def inputPlain : UploadLocalFilesInput :=
  { inputUpdated with Configuration := ⟨"B", "**/*", "", none, []⟩ }

/-- A configuration whose glob matches nothing in the example world. -/
def dataNoMatch : s3extraImmutableAssetsData :=
  { dataPlain with Glob := ⟨false, false, "nonexistent/**/*.xyz"⟩ }

/-- A configuration whose glob matches two files of the example world. -/
def dataTxtJs : s3extraImmutableAssetsData :=
  { dataPlain with Glob := ⟨false, false, "**/*.{txt,js}"⟩ }

/-- The three files of the example world, as a map. -/
def filesFixtures : GoMap FileResult :=
  [("fixtures/hello.txt", fileHello), ("fixtures/static/main.js", fileMainJs),
    ("LICENSE", fileLicense)]

/-- The runtime choices used in the examples. -/
def scheduleExample : Schedule := ⟨[1], [1], []⟩

/-! ## Facts about the digest, the hex encoding and the byte conversion -/

theorem Sum256_length (msg : List Nat) : (Sum256 msg).length = 32 := by
  simp [Sum256, beBytes]

theorem Sum256_lt (msg : List Nat) : ∀ b ∈ Sum256 msg, b < 256 := by
  intro b hb
  simp only [Sum256, beBytes, List.mem_append, List.mem_cons, List.mem_singleton,
    List.not_mem_nil, or_false] at hb
  omega

/-- The digest of the empty message, as published with the standard. -/
theorem Sum256_empty :
    EncodeToString (Sum256 []) =
      "e3b0c44298fc1c149afbf4c8996fb92427ae41e4649b934ca495991b7852b855" := by
  decide

/-- The digest of "abc", as published with the standard. -/
theorem Sum256_abc :
    EncodeToString (Sum256 (bytes "abc")) =
      "ba7816bf8f01cfea414140de5dae2223b00361a396177a9cb410ff61f20015ad" := by
  decide

/-- The digest of a message of two blocks, as published with the standard. -/
theorem Sum256_two_blocks :
    EncodeToString (Sum256 (bytes "abcdbcdecdefdefgefghfghighijhijkijkljklmklmnlmnomnopnopq")) =
      "248d6a61d20638b8e5c026930c3e6039a33ce45964ff2167f6ecedd419db06c1" := by
  decide

theorem hexByte_length (v : Nat) : (hexByte v).length = 2 := rfl

theorem flatMap_hexByte_length (bs : List Nat) : (bs.flatMap hexByte).length = 2 * bs.length := by
  induction bs with
  | nil => rfl
  | cons b bs ih =>
    simp only [List.flatMap_cons, List.length_append, hexByte_length, ih, List.length_cons]
    omega

theorem EncodeToString_length (bs : List Nat) : (EncodeToString bs).length = 2 * bs.length := by
  exact flatMap_hexByte_length bs

theorem hexDigit_mem (i : Nat) (hi : i < 16) :
    hextable.getD i '0' ∈ "0123456789abcdef".toList := by
  interval_cases i <;> decide

theorem EncodeToString_hex (bs : List Nat) :
    ∀ c ∈ (EncodeToString bs).toList, c ∈ "0123456789abcdef".toList := by
  intro c hc
  simp only [EncodeToString, String.toList, List.mem_flatMap, hexByte, List.mem_cons,
    List.mem_singleton, List.not_mem_nil, or_false] at hc
  obtain ⟨v, _, hv⟩ := hc
  rcases hv with hv | hv
  · rw [hv]; exact hexDigit_mem _ (by omega)
  · rw [hv]; exact hexDigit_mem _ (by omega)

theorem hexDigit_inj : ∀ i < 16, ∀ j < 16,
    hextable.getD i '0' = hextable.getD j '0' → i = j := by
  decide

theorem hexByte_inj (a b : Nat) (ha : a < 256) (hb : b < 256) (h : hexByte a = hexByte b) :
    a = b := by
  simp only [hexByte, List.cons.injEq, and_true] at h
  have h1 := hexDigit_inj _ (by omega) _ (by omega) h.1
  have h2 := hexDigit_inj _ (by omega) _ (by omega) h.2
  omega

theorem EncodeToString_inj (xs ys : List Nat) (hx : ∀ b ∈ xs, b < 256) (hy : ∀ b ∈ ys, b < 256)
    (h : EncodeToString xs = EncodeToString ys) : xs = ys := by
  have h' : xs.flatMap hexByte = ys.flatMap hexByte := congrArg String.data h
  clear h
  induction xs generalizing ys with
  | nil =>
    cases ys with
    | nil => rfl
    | cons y ys => simp [List.flatMap_cons, hexByte] at h'
  | cons x xs ih =>
    cases ys with
    | nil => simp [List.flatMap_cons, hexByte] at h'
    | cons y ys =>
      simp only [List.flatMap_cons, hexByte, List.cons_append, List.nil_append,
        List.cons.injEq] at h'
      have hxy : x = y := by
        apply hexByte_inj x y (hx x (by simp)) (hy y (by simp))
        simp only [hexByte]
        rw [h'.1, h'.2.1]
      subst hxy
      rw [ih ys (fun b hb => hx b (by simp [hb])) (fun b hb => hy b (by simp [hb])) h'.2.2]

theorem char_toNat_lt (c : Char) : c.toNat < 1114112 := by
  have h := c.valid
  simp only [Char.toNat]
  rcases h with h | h
  · have : c.val.toNat < 55296 := h
    omega
  · exact h.2

theorem char_toNat_inj (c d : Char) (h : c.toNat = d.toNat) : c = d := by
  apply Char.ext
  apply UInt32.ext
  exact h

theorem utf8Char_append_inj (c d : Char) (r r' : List Nat)
    (h : utf8Char c ++ r = utf8Char d ++ r') : c = d ∧ r = r' := by
  have hc := char_toNat_lt c
  have hd := char_toNat_lt d
  have key : c.toNat = d.toNat ∧ r = r' := by
    unfold utf8Char at h
    simp only at h
    split_ifs at h <;>
      simp only [List.cons_append, List.nil_append, List.cons.injEq] at h <;>
      first
        | (exfalso; omega)
        | (constructor
           · omega
           · simp [h])
  exact ⟨char_toNat_inj c d key.1, key.2⟩

theorem utf8Char_ne_nil (c : Char) : utf8Char c ≠ [] := by
  unfold utf8Char
  simp only
  split_ifs <;> simp

theorem flatMap_utf8Char_inj (s t : List Char)
    (h : s.flatMap utf8Char = t.flatMap utf8Char) : s = t := by
  induction s generalizing t with
  | nil =>
    cases t with
    | nil => rfl
    | cons d t =>
      simp only [List.flatMap_nil, List.flatMap_cons] at h
      have := utf8Char_ne_nil d
      cases hd : utf8Char d with
      | nil => exact absurd hd this
      | cons a l => rw [hd] at h; simp at h
  | cons c s ih =>
    cases t with
    | nil =>
      simp only [List.flatMap_nil, List.flatMap_cons] at h
      have := utf8Char_ne_nil c
      cases hc : utf8Char c with
      | nil => exact absurd hc this
      | cons a l => rw [hc] at h; simp at h
    | cons d t =>
      simp only [List.flatMap_cons] at h
      obtain ⟨hcd, hr⟩ := utf8Char_append_inj c d _ _ h
      rw [hcd, ih t hr]

theorem bytes_inj (s t : String) (h : bytes s = bytes t) : s = t := by
  apply String.ext
  exact flatMap_utf8Char_inj _ _ h

theorem len_pos_iff (s : String) : 0 < len s ↔ s ≠ "" := by
  unfold len bytes
  constructor
  · intro h hs
    subst hs
    simp at h
  · intro hs
    cases hl : s.toList with
    | nil =>
      exfalso
      apply hs
      apply String.ext
      simpa using hl
    | cons c l =>
      have := utf8Char_ne_nil c
      cases hc : utf8Char c with
      | nil => exact absurd hc this
      | cons a r => simp [List.flatMap_cons, hc]

/-! ## Facts about visiting orders and maps -/

theorem getD_cons_eraseIdx_perm {α : Type} (l : List α) (i : Nat) (d : α) (h : i < l.length) :
    (l.getD i d :: l.eraseIdx i).Perm l := by
  induction l generalizing i with
  | nil => simp at h
  | cons a t ih =>
    cases i with
    | zero => simp
    | succ j =>
      have hj : j < t.length := by simpa using h
      have h1 : (a :: t).getD (j + 1) d = t.getD j d := by simp
      have h2 : (a :: t).eraseIdx (j + 1) = a :: t.eraseIdx j := rfl
      rw [h1, h2]
      exact (List.Perm.swap a (t.getD j d) (t.eraseIdx j)).trans ((ih j hj).cons a)

theorem rangeOrder_perm {α : Type} (ks : List Nat) (xs : List α) :
    (rangeOrder ks xs).Perm xs := by
  induction ks generalizing xs with
  | nil => cases xs <;> simp [rangeOrder]
  | cons k ks ih =>
    cases xs with
    | nil => simp [rangeOrder]
    | cons x xs =>
      simp only [rangeOrder]
      have hi : k % (xs.length + 1) < (x :: xs).length := by
        simp only [List.length_cons]
        exact Nat.mod_lt _ (Nat.succ_pos _)
      exact ((ih _).cons _).trans (getD_cons_eraseIdx_perm (x :: xs) _ x hi)

/-- Every enumeration of a list is the visiting order of some list of picks. -/
theorem rangeOrder_surjective {α : Type} (l' : List α) :
    ∀ l : List α, l'.Perm l → ∃ ks, rangeOrder ks l = l' := by
  induction l' with
  | nil =>
    intro l hp
    exact ⟨[], by rw [← hp.nil_eq]; rfl⟩
  | cons a t ih =>
    intro l hp
    cases l with
    | nil => exact absurd hp.length_eq (by simp)
    | cons x xs =>
      have ha : a ∈ x :: xs := hp.mem_iff.mp (List.mem_cons_self a t)
      obtain ⟨i, hi, hget⟩ := List.getElem_of_mem ha
      have hmod : i % (xs.length + 1) = i := Nat.mod_eq_of_lt (by simpa using hi)
      have hgetD : (x :: xs).getD i x = a := by
        rw [List.getD_eq_getElem _ _ hi, hget]
      have hrest : t.Perm ((x :: xs).eraseIdx i) := by
        have h1 := getD_cons_eraseIdx_perm (x :: xs) i x hi
        rw [hgetD] at h1
        exact List.Perm.cons_inv (hp.trans h1.symm)
      obtain ⟨ks, hks⟩ := ih _ hrest
      refine ⟨i :: ks, ?_⟩
      simp only [rangeOrder, hmod, hgetD, hks]

theorem GoMap.get_set {β : Type} (m : GoMap β) (k k' : String) (v : β) :
    (m.set k v).get k' = if k = k' then some v else m.get k' := by
  induction m with
  | nil => simp [GoMap.set, GoMap.get]
  | cons e m ih =>
    obtain ⟨k0, v0⟩ := e
    by_cases h0 : k0 = k
    · subst h0
      simp only [GoMap.set, GoMap.get, if_true]
      split_ifs <;> rfl
    · simp only [GoMap.set, h0, if_false, GoMap.get, ih]
      by_cases h1 : k0 = k'
      · subst h1
        have : ¬ k = k0 := fun h => h0 h.symm
        simp [this]
      · simp [h1]

theorem GoMap.keys_set {β : Type} (m : GoMap β) (k : String) (v : β) :
    (m.set k v).keys = if k ∈ m.keys then m.keys else m.keys ++ [k] := by
  induction m with
  | nil => simp [GoMap.set, GoMap.keys]
  | cons e m ih =>
    obtain ⟨k0, v0⟩ := e
    by_cases h0 : k0 = k
    · subst h0
      simp [GoMap.set, GoMap.keys]
    · have hk : ¬ k = k0 := fun h => h0 h.symm
      have ih' : List.map Prod.fst (GoMap.set m k v) =
          if k ∈ List.map Prod.fst m then List.map Prod.fst m else List.map Prod.fst m ++ [k] := ih
      simp only [GoMap.set, h0, if_false, GoMap.keys, List.map_cons, List.mem_cons, hk,
        false_or, ih']
      split_ifs <;> simp

theorem GoMap.get_eq_none {β : Type} (m : GoMap β) (k : String) (h : k ∉ m.keys) :
    m.get k = none := by
  induction m with
  | nil => rfl
  | cons e m ih =>
    obtain ⟨k0, v0⟩ := e
    simp only [GoMap.keys, List.map_cons, List.mem_cons, not_or] at h
    have h0 : ¬ k0 = k := fun h' => h.1 h'.symm
    simp only [GoMap.get, h0, if_false]
    exact ih h.2

theorem GoMap.mem_of_get {β : Type} (m : GoMap β) (k : String) (v : β)
    (h : m.get k = some v) : (k, v) ∈ m := by
  induction m with
  | nil => simp [GoMap.get] at h
  | cons e m ih =>
    obtain ⟨k0, v0⟩ := e
    by_cases h0 : k0 = k
    · subst h0
      simp only [GoMap.get, if_true, Option.some.injEq] at h
      simp [h]
    · simp only [GoMap.get, h0, if_false] at h
      exact List.mem_cons_of_mem _ (ih h)

theorem GoMap.get_of_mem {β : Type} (m : GoMap β) (k : String) (v : β)
    (hnd : m.keys.Nodup) (h : (k, v) ∈ m) : m.get k = some v := by
  induction m with
  | nil => simp at h
  | cons e m ih =>
    obtain ⟨k0, v0⟩ := e
    simp only [GoMap.keys, List.map_cons, List.nodup_cons] at hnd
    rcases List.mem_cons.mp h with heq | hmem
    · simp only [Prod.mk.injEq] at heq
      simp [GoMap.get, heq.1, heq.2]
    · have hk : k ∈ List.map Prod.fst m := List.mem_map.mpr ⟨(k, v), hmem, rfl⟩
      have h0 : ¬ k0 = k := fun h' => hnd.1 (h' ▸ hk)
      simp only [GoMap.get, h0, if_false]
      exact ih hnd.2 hmem

/-- A map filled by one `m[key x] = value x` per entry of a list: entries whose key is not
written keep their value. -/
theorem foldl_set_get_other {β γ : Type} (kf : γ → String) (vf : γ → β) (l : List γ)
    (m : GoMap β) (k : String) (hk : k ∉ l.map kf) :
    (l.foldl (fun acc x => acc.set (kf x) (vf x)) m).get k = m.get k := by
  induction l generalizing m with
  | nil => rfl
  | cons y t ih =>
    simp only [List.map_cons, List.mem_cons, not_or] at hk
    simp only [List.foldl_cons]
    rw [ih _ hk.2, GoMap.get_set]
    have : ¬ kf y = k := fun h => hk.1 h.symm
    simp [this]

/-- A map filled by one `m[key x] = value x` per entry of a list holds an entry for every
key written. -/
theorem foldl_set_get_or {β γ : Type} (kf : γ → String) (vf : γ → β) (l : List γ)
    (m : GoMap β) (k : String) (hk : k ∈ l.map kf) :
    ∃ v, (l.foldl (fun acc y => acc.set (kf y) (vf y)) m).get k = some v := by
  induction l generalizing m with
  | nil => simp at hk
  | cons y t ih =>
    simp only [List.foldl_cons]
    by_cases hmem : k ∈ t.map kf
    · exact ih _ hmem
    · have hky : k = kf y := by
        rcases List.mem_cons.mp hk with h | h
        · exact h
        · exact absurd h hmem
      refine ⟨vf y, ?_⟩
      rw [foldl_set_get_other kf vf t _ k hmem, GoMap.get_set]
      simp [hky]

theorem GoMap.mem_set {β : Type} (m : GoMap β) (k : String) (v : β) (e : String × β)
    (h : e ∈ m.set k v) : e = (k, v) ∨ e ∈ m := by
  induction m with
  | nil =>
    simp only [GoMap.set, List.mem_singleton] at h
    exact Or.inl h
  | cons e0 m ih =>
    obtain ⟨k0, v0⟩ := e0
    simp only [GoMap.set] at h
    split_ifs at h
    · rcases List.mem_cons.mp h with h | h
      · exact Or.inl h
      · exact Or.inr (List.mem_cons_of_mem _ h)
    · rcases List.mem_cons.mp h with h | h
      · exact Or.inr (h ▸ List.mem_cons_self _ _)
      · rcases ih h with h | h
        · exact Or.inl h
        · exact Or.inr (List.mem_cons_of_mem _ h)

/-- A map filled by one `m[key x] = value x` per entry of a list holds nothing but what it
held before and what was written. -/
theorem foldl_set_mem {β γ : Type} (kf : γ → String) (vf : γ → β) (l : List γ)
    (m : GoMap β) (e : String × β)
    (h : e ∈ l.foldl (fun acc y => acc.set (kf y) (vf y)) m) :
    e ∈ m ∨ ∃ x ∈ l, e = (kf x, vf x) := by
  induction l generalizing m with
  | nil => exact Or.inl h
  | cons y t ih =>
    simp only [List.foldl_cons] at h
    rcases ih _ h with h | ⟨x, hx, hxe⟩
    · rcases GoMap.mem_set m _ _ e h with h | h
      · exact Or.inr ⟨y, List.mem_cons_self _ _, h⟩
      · exact Or.inl h
    · exact Or.inr ⟨x, List.mem_cons_of_mem _ hx, hxe⟩

theorem foldl_set_get {β γ : Type} (kf : γ → String) (vf : γ → β) (l : List γ)
    (m : GoMap β) (hnd : (l.map kf).Nodup) (x : γ) (hx : x ∈ l) :
    (l.foldl (fun acc y => acc.set (kf y) (vf y)) m).get (kf x) = some (vf x) := by
  induction l generalizing m with
  | nil => simp at hx
  | cons y t ih =>
    simp only [List.map_cons, List.nodup_cons] at hnd
    simp only [List.foldl_cons]
    rcases List.mem_cons.mp hx with heq | hmem
    · subst heq
      rw [foldl_set_get_other kf vf t _ _ hnd.1, GoMap.get_set]
      simp
    · exact ih _ hnd.2 hmem

theorem foldl_set_keys {β γ : Type} (kf : γ → String) (vf : γ → β) (l : List γ)
    (m : GoMap β) (hnd : (l.map kf).Nodup) (hdis : ∀ x ∈ l, kf x ∉ m.keys) :
    (l.foldl (fun acc y => acc.set (kf y) (vf y)) m).keys = m.keys ++ l.map kf := by
  induction l generalizing m with
  | nil => simp
  | cons y t ih =>
    simp only [List.map_cons, List.nodup_cons] at hnd
    simp only [List.foldl_cons]
    have hy : kf y ∉ m.keys := hdis y (by simp)
    have hkeys : (m.set (kf y) (vf y)).keys = m.keys ++ [kf y] := by
      rw [GoMap.keys_set]; simp [hy]
    rw [ih _ hnd.2, hkeys]
    · simp
    · intro x hx
      rw [hkeys]
      simp only [List.mem_append, List.mem_singleton, not_or]
      refine ⟨hdis x (List.mem_cons_of_mem _ hx), ?_⟩
      intro h
      exact hnd.1 (h ▸ List.mem_map.mpr ⟨x, hx, rfl⟩)

/-! ## Facts about discovery -/

theorem foldl_readOne_ok (w : World) (l : List String) (acc : GoMap FileResult × Option String)
    (h : (l.foldl (readOne w) acc).2 = none) :
    acc.2 = none ∧ (∀ p ∈ l, ∃ data, w.ReadFile p = .ok data) ∧
    (l.foldl (readOne w) acc).1 =
      l.foldl (fun (m : GoMap FileResult) p =>
        m.set p ⟨p, EncodeToString (Sum256 (w.content p)), w.content p⟩) acc.1 := by
  induction l generalizing acc with
  | nil => exact ⟨h, by simp, rfl⟩
  | cons p t ih =>
    simp only [List.foldl_cons] at h ⊢
    obtain ⟨h1, h2, h3⟩ := ih _ h
    cases hr : w.ReadFile p with
    | error err =>
      simp only [readOne, hr] at h1
      split_ifs at h1 with hs
      rw [h1] at hs
      simp at hs
    | ok data =>
      simp only [readOne, hr] at h1
      refine ⟨h1, ?_, ?_⟩
      · intro q hq
        rcases List.mem_cons.mp hq with rfl | hq
        · exact ⟨data, hr⟩
        · exact h2 q hq
      · rw [h3]
        simp only [readOne, hr, World.content]

theorem foldl_readOne_none (w : World) (l : List String) (acc : GoMap FileResult × Option String)
    (hacc : acc.2 = none) (hall : ∀ p ∈ l, ∃ data, w.ReadFile p = .ok data) :
    (l.foldl (readOne w) acc).2 = none := by
  induction l generalizing acc with
  | nil => exact hacc
  | cons p t ih =>
    simp only [List.foldl_cons]
    apply ih
    · obtain ⟨data, hd⟩ := hall p (by simp)
      simp only [readOne, hd, hacc]
    · intro q hq
      exact hall q (List.mem_cons_of_mem _ hq)

/-- What a successful `ReadLocalFiles` returns: the glob step gave a non-empty list of paths,
every read succeeded, and the map holds one write per path, in the order the goroutines
ran. -/
theorem ReadLocalFiles_ok (w : World) (sched : List Nat) (g : String) (files : GoMap FileResult)
    (log : List Event) (h : ReadLocalFiles w sched g = (.ok files, log)) :
    ∃ paths, w.Glob g = .ok paths ∧ paths ≠ [] ∧
      (∀ p ∈ paths, ∃ data, w.ReadFile p = .ok data) ∧
      files = (rangeOrder sched paths).foldl (fun (m : GoMap FileResult) p =>
        m.set p ⟨p, EncodeToString (Sum256 (w.content p)), w.content p⟩) [] ∧
      log = Event.Glob g :: (rangeOrder sched paths).map Event.ReadFile := by
  unfold ReadLocalFiles at h
  cases hg : w.Glob g with
  | error err => simp [hg] at h
  | ok paths =>
    simp only [hg] at h
    by_cases hlen : paths.length = 0
    · simp [hlen] at h
    · simp only [hlen, if_false] at h
      cases ho : ((rangeOrder sched paths).foldl (readOne w) ([], none)).2 with
      | some err => simp [ho] at h
      | none =>
        simp only [ho, Prod.mk.injEq, Except.ok.injEq] at h
        obtain ⟨_, hall, hfiles⟩ := foldl_readOne_ok w _ _ ho
        refine ⟨paths, rfl, ?_, ?_, ?_, h.2.symm⟩
        · intro hnil
          exact hlen (by simp [hnil])
        · intro p hp
          exact hall p ((rangeOrder_perm sched paths).mem_iff.mpr hp)
        · rw [← h.1, hfiles]

/-- Every file of a map that `ReadLocalFiles` returns sits under its own path and carries the
hex SHA-256 of its content as its hash. -/
theorem ReadLocalFiles_wellformed (w : World) (sched : List Nat) (g : String)
    (files : GoMap FileResult) (log : List Event)
    (h : ReadLocalFiles w sched g = (.ok files, log)) :
    ∀ kv ∈ files, kv.2.path = kv.1 ∧ kv.2.hash = EncodeToString (Sum256 kv.2.data) := by
  obtain ⟨paths, _, _, _, hfiles, _⟩ := ReadLocalFiles_ok w sched g files log h
  intro kv hkv
  rw [hfiles] at hkv
  rcases foldl_set_mem (fun p : String => p)
    (fun p => (⟨p, EncodeToString (Sum256 (w.content p)), w.content p⟩ : FileResult))
    (rangeOrder sched paths) [] kv hkv with h0 | ⟨p, _, hp⟩
  · simp at h0
  · rw [hp]
    exact ⟨rfl, rfl⟩

/-- `ReadLocalFiles` returns a map whenever the glob step gives at least one path and every
matched path can be read. -/
theorem ReadLocalFiles_succeeds (w : World) (sched : List Nat) (g : String) (paths : List String)
    (hg : w.Glob g = .ok paths) (hne : paths ≠ [])
    (hall : ∀ p ∈ paths, ∃ data, w.ReadFile p = .ok data) :
    ∃ files, ReadLocalFiles w sched g =
      (.ok files, Event.Glob g :: (rangeOrder sched paths).map Event.ReadFile) := by
  have hlen : ¬ paths.length = 0 := by
    intro h
    exact hne (List.length_eq_zero.mp h)
  have hn := foldl_readOne_none w (rangeOrder sched paths) ([], none) rfl
    (fun p hp => hall p ((rangeOrder_perm sched paths).mem_iff.mp hp))
  refine ⟨((rangeOrder sched paths).foldl (readOne w) ([], none)).1, ?_⟩
  simp only [ReadLocalFiles, hg, hlen, if_false, hn]

/-- `ToTerraformState` on a map: the keys are those of the map, in the order visited, and
every key carries the hash field of its file. -/
theorem ToTerraformState_spec (order : List Nat) (m : GoMap FileResult) (hnd : m.keys.Nodup) :
    (ToTerraformState order m).keys = (rangeOrder order m).map Prod.fst ∧
    (ToTerraformState order m).keys.Perm m.keys ∧
    ∀ p f, m.get p = some f → (ToTerraformState order m).get p = some f.hash := by
  have hperm := rangeOrder_perm order m
  have hnd' : ((rangeOrder order m).map Prod.fst).Nodup :=
    (hperm.map Prod.fst).nodup_iff.mpr hnd
  have hkeys := foldl_set_keys (fun kv : String × FileResult => kv.1) (fun kv => kv.2.hash)
    (rangeOrder order m) [] hnd' (by simp [GoMap.keys])
  have hkeys' : (ToTerraformState order m).keys = (rangeOrder order m).map Prod.fst := by
    simpa [ToTerraformState, GoMap.keys] using hkeys
  refine ⟨hkeys', ?_, ?_⟩
  · rw [hkeys']
    exact hperm.map Prod.fst
  · intro p f hget
    have hmem : (p, f) ∈ rangeOrder order m := hperm.mem_iff.mpr (GoMap.mem_of_get m p f hget)
    exact foldl_set_get (fun kv : String × FileResult => kv.1) (fun kv => kv.2.hash)
      (rangeOrder order m) [] hnd' (p, f) hmem

/-- The map a successful `ReadLocalFiles` returns on distinct paths: its keys are the matched
paths in the order the goroutines ran, and every path carries its own file. -/
theorem ReadLocalFiles_files (w : World) (sched : List Nat) (g : String) (paths : List String)
    (files : GoMap FileResult) (log : List Event)
    (hg : w.Glob g = .ok paths) (hnd : paths.Nodup)
    (hok : ReadLocalFiles w sched g = (.ok files, log)) :
    files.keys = rangeOrder sched paths ∧
    ∀ p ∈ paths, ∃ data, w.ReadFile p = .ok data ∧
      files.get p = some ⟨p, EncodeToString (Sum256 data), data⟩ := by
  obtain ⟨paths', hg', _, hall, hfiles, _⟩ := ReadLocalFiles_ok w sched g files log hok
  have hpp : paths' = paths := by
    rw [hg] at hg'
    exact (Except.ok.inj hg').symm
  subst hpp
  have hperm := rangeOrder_perm sched paths'
  have hnd' : ((rangeOrder sched paths').map (fun p => p)).Nodup := by
    simpa using hperm.nodup_iff.mpr hnd
  constructor
  · have hkeys := foldl_set_keys (fun p : String => p)
      (fun p => (⟨p, EncodeToString (Sum256 (w.content p)), w.content p⟩ : FileResult))
      (rangeOrder sched paths') [] hnd' (by simp [GoMap.keys])
    rw [hfiles]
    simpa [GoMap.keys] using hkeys
  · intro p hp
    obtain ⟨data, hd⟩ := hall p hp
    refine ⟨data, hd, ?_⟩
    have hget := foldl_set_get (fun p : String => p)
      (fun p => (⟨p, EncodeToString (Sum256 (w.content p)), w.content p⟩ : FileResult))
      (rangeOrder sched paths') [] hnd' p (hperm.mem_iff.mpr hp)
    rw [hfiles]
    have hc : w.content p = data := by simp [World.content, hd]
    simpa [hc] using hget

/-! ## Facts about the upload loop -/

theorem uploadKey_eq_objectKey (input : UploadLocalFilesInput) (file : FileResult) :
    uploadKey input file = objectKey input.Configuration.Prefix file.path := by
  unfold uploadKey objectKey
  by_cases h : input.Configuration.Prefix = ""
  · have : ¬ len input.Configuration.Prefix > 0 := by
      intro hl
      exact (len_pos_iff _).mp hl h
    rw [if_neg this, if_pos h]
  · have : len input.Configuration.Prefix > 0 := (len_pos_iff _).mpr h
    rw [if_pos this, if_neg h]
    rfl

/-- The calls of the upload loop: the log grows by calls that are the put-object request or
the existence check of one of the files, and when the loop ends without error every file
has had both. -/
theorem uploadLoop_log (w : World) (input : UploadLocalFilesInput) :
    ∀ (files : List (String × FileResult)) (results : List (Option UploadOutput))
      (log : List Event),
    ∃ new, (uploadLoop w input files results log).2 = log ++ new ∧
      (∀ e ∈ new, ∃ kv ∈ files, e = Event.Upload (uploadInputOf w input kv.2) ∨
        e = Event.Wait (headInputOf input kv.2) fiveMinutes) ∧
      ((∃ r, (uploadLoop w input files results log).1 = .ok r) →
        ∀ kv ∈ files, Event.Upload (uploadInputOf w input kv.2) ∈ new ∧
          Event.Wait (headInputOf input kv.2) fiveMinutes ∈ new) := by
  intro files
  induction files with
  | nil =>
    intro results log
    exact ⟨[], by simp [uploadLoop], by simp, by simp⟩
  | cons kv rest ih =>
    intro results log
    obtain ⟨k, file⟩ := kv
    cases hu : w.Upload log (uploadInputOf w input file) with
    | error err =>
      refine ⟨[Event.Upload (uploadInputOf w input file)], by simp [uploadLoop, hu], ?_, ?_⟩
      · intro e he
        exact ⟨(k, file), by simp, Or.inl (by simpa using he)⟩
      · rintro ⟨r, hr⟩
        simp [uploadLoop, hu] at hr
    | ok result =>
      cases hw : w.Wait (log ++ [Event.Upload (uploadInputOf w input file)])
          (headInputOf input file) fiveMinutes with
      | some err =>
        refine ⟨[Event.Upload (uploadInputOf w input file),
          Event.Wait (headInputOf input file) fiveMinutes], by simp [uploadLoop, hu, hw], ?_, ?_⟩
        · intro e he
          refine ⟨(k, file), by simp, ?_⟩
          simpa using he
        · rintro ⟨r, hr⟩
          simp [uploadLoop, hu, hw] at hr
      | none =>
        obtain ⟨new, hlog, hsound, hall⟩ := ih (results ++ [some result])
          (log ++ [Event.Upload (uploadInputOf w input file)] ++
            [Event.Wait (headInputOf input file) fiveMinutes])
        have hstep : uploadLoop w input ((k, file) :: rest) results log =
            uploadLoop w input rest (results ++ [some result])
              (log ++ [Event.Upload (uploadInputOf w input file)] ++
                [Event.Wait (headInputOf input file) fiveMinutes]) := by
          simp [uploadLoop, hu, hw]
        refine ⟨Event.Upload (uploadInputOf w input file) ::
          Event.Wait (headInputOf input file) fiveMinutes :: new, ?_, ?_, ?_⟩
        · rw [hstep, hlog]
          simp
        · intro e he
          rcases List.mem_cons.mp he with h1 | he
          · exact ⟨(k, file), by simp, Or.inl h1⟩
          · rcases List.mem_cons.mp he with h2 | he
            · exact ⟨(k, file), by simp, Or.inr h2⟩
            · obtain ⟨kv, hkv, h⟩ := hsound e he
              exact ⟨kv, List.mem_cons_of_mem _ hkv, h⟩
        · rintro ⟨r, hr⟩ kv hkv
          rw [hstep] at hr
          rcases List.mem_cons.mp hkv with rfl | hkv
          · simp
          · have := hall ⟨r, hr⟩ kv hkv
            exact ⟨List.mem_cons_of_mem _ (List.mem_cons_of_mem _ this.1),
              List.mem_cons_of_mem _ (List.mem_cons_of_mem _ this.2)⟩

/-- The calls of `UploadLocalFiles`, in terms of the files of its input. -/
theorem UploadLocalFiles_log (w : World) (order : List Nat) (input : UploadLocalFilesInput)
    (log : List Event) :
    ∃ new, (UploadLocalFiles w order input log).2 = log ++ new ∧
      (∀ e ∈ new, ∃ kv ∈ input.Files, e = Event.Upload (uploadInputOf w input kv.2) ∨
        e = Event.Wait (headInputOf input kv.2) fiveMinutes) ∧
      ((∃ r, (UploadLocalFiles w order input log).1 = .ok r) →
        ∀ kv ∈ input.Files, Event.Upload (uploadInputOf w input kv.2) ∈ new ∧
          Event.Wait (headInputOf input kv.2) fiveMinutes ∈ new) := by
  obtain ⟨new, hlog, hsound, hall⟩ := uploadLoop_log w input (rangeOrder order input.Files)
    (List.replicate input.Files.length none) log
  have hperm := rangeOrder_perm order input.Files
  refine ⟨new, hlog, ?_, ?_⟩
  · intro e he
    obtain ⟨kv, hkv, h⟩ := hsound e he
    exact ⟨kv, hperm.mem_iff.mp hkv, h⟩
  · intro hr kv hkv
    exact hall hr kv (hperm.mem_iff.mpr hkv)

theorem contentType_of_table (w : World) (input : UploadLocalFilesInput) (file : FileResult) :
    (∃ t, w.mimeTypes (Ext file.path) = some t ∧ (uploadInputOf w input file).ContentType = t) ∨
    (w.mimeTypes (Ext file.path) = none ∧ (uploadInputOf w input file).ContentType = "") := by
  cases h : w.mimeTypes (Ext file.path) with
  | none => exact Or.inr ⟨rfl, by simp [uploadInputOf, TypeByExtension, h]⟩
  | some t => exact Or.inl ⟨t, rfl, by simp [uploadInputOf, TypeByExtension, h]⟩

/-! ## Facts about the stable sort and the aggregate digest -/

theorem bytesLess_asymm : ∀ a b : List Nat, bytesLess a b = true → bytesLess b a = false
  | [], [], h => by simp [bytesLess] at h
  | [], _ :: _, _ => by simp [bytesLess]
  | _ :: _, [], h => by simp [bytesLess] at h
  | x :: a, y :: b, h => by
    simp only [bytesLess] at h ⊢
    by_cases h1 : x < y
    · have h2 : ¬ y < x := by omega
      simp [h2, h1]
    · by_cases h2 : y < x
      · simp [h1, h2] at h
      · simp only [h1, h2, if_false] at h ⊢
        exact bytesLess_asymm a b h

theorem bytesLess_antisymm : ∀ a b : List Nat,
    bytesLess a b = false → bytesLess b a = false → a = b
  | [], [], _, _ => rfl
  | [], _ :: _, h, _ => by simp [bytesLess] at h
  | _ :: _, [], _, h => by simp [bytesLess] at h
  | x :: a, y :: b, h, h' => by
    simp only [bytesLess] at h h'
    by_cases h1 : x < y
    · simp [h1] at h
    · by_cases h2 : y < x
      · simp [h2] at h'
      · simp only [h1, h2, if_false] at h h'
        have hxy : x = y := by omega
        rw [hxy, bytesLess_antisymm a b h h']

theorem bytesLess_le_trans : ∀ a b c : List Nat,
    bytesLess b a = false → bytesLess c b = false → bytesLess c a = false
  | [], [], [], _, _ => rfl
  | [], [], _ :: _, _, _ => by simp [bytesLess]
  | [], _ :: _, [], _, h => by simp [bytesLess] at h
  | [], _ :: _, _ :: _, _, _ => by simp [bytesLess]
  | _ :: _, [], _, h, _ => by simp [bytesLess] at h
  | _ :: _, _ :: _, [], _, h => by simp [bytesLess] at h
  | x :: a, y :: b, z :: c, h, h' => by
    simp only [bytesLess] at h h' ⊢
    by_cases h1 : y < x
    · simp [h1] at h
    · by_cases h2 : z < y
      · simp [h2] at h'
      · by_cases h3 : x < y
        · have h4 : ¬ z < x := by omega
          simp only [h4, if_false]
          by_cases h5 : x < z
          · simp [h5]
          · by_cases h6 : y < z
            · omega
            · simp only [h5, if_false]
              simp only [h2, h6, if_false] at h'
              omega
        · simp only [h1, h3, if_false] at h
          by_cases h6 : y < z
          · have h4 : ¬ z < x := by omega
            have h5 : x < z := by omega
            simp [h4, h5]
          · simp only [h2, h6, if_false] at h'
            have h4 : ¬ z < x := by omega
            have h5 : ¬ x < z := by omega
            simp only [h4, h5, if_false]
            exact bytesLess_le_trans a b c h h'

/-- Entries that compare equal keep their order, here on pairs compared by their first
component. -/
theorem SliceStable_keeps_ties :
    SliceStable (fun x y : Nat × Nat => decide (x.1 < y.1))
        [(2, 0), (1, 1), (2, 2), (1, 3), (0, 4), (2, 5)] =
      [(0, 4), (1, 1), (1, 3), (2, 0), (2, 2), (2, 5)] := by
  decide

/-- The comparison of the sort is the lexicographic order on byte strings. -/
theorem bytesLess_iff_lt : ∀ a b : List Nat, bytesLess a b = true ↔ a < b
  | [], [] => by
    constructor
    · intro h
      simp [bytesLess] at h
    · intro h
      cases h
  | [], b :: bs => ⟨fun _ => List.Lex.nil, fun _ => rfl⟩
  | a :: as, [] => by
    constructor
    · intro h
      simp [bytesLess] at h
    · intro h
      cases h
  | a :: as, b :: bs => by
    simp only [bytesLess]
    by_cases h1 : a < b
    · simp only [h1, if_true, true_iff]
      exact List.Lex.rel h1
    · by_cases h2 : b < a
      · simp only [h1, h2, if_false, if_true, Bool.false_eq_true, false_iff]
        intro h
        cases h with
        | cons _ => exact absurd h2 (Nat.lt_irrefl _)
        | rel h => exact h1 h
      · have hab : a = b := by omega
        subst hab
        simp only [h1, if_false]
        rw [bytesLess_iff_lt as bs]
        constructor
        · intro h
          exact List.Lex.cons h
        · intro h
          cases h with
          | cons h => exact h
          | rel h => exact absurd h (Nat.lt_irrefl _)

theorem insertStable_perm {α : Type} (less : α → α → Bool) (a : α) (l : List α) :
    (insertStable less a l).Perm (a :: l) := by
  induction l with
  | nil => exact List.Perm.refl _
  | cons b l ih =>
    simp only [insertStable]
    split_ifs
    · exact (ih.cons b).trans (List.Perm.swap a b l)
    · exact List.Perm.refl _

theorem SliceStable_perm {α : Type} (less : α → α → Bool) (l : List α) :
    (SliceStable less l).Perm l := by
  induction l with
  | nil => exact List.Perm.refl _
  | cons a l ih =>
    simp only [SliceStable]
    exact (insertStable_perm less a _).trans (ih.cons a)

theorem insertStable_sorted {α : Type} (less : α → α → Bool)
    (hasymm : ∀ x y, less x y = true → less y x = false)
    (htrans : ∀ x y z, less y x = false → less z y = false → less z x = false)
    (a : α) (l : List α) (hl : l.Pairwise (fun x y => less y x = false)) :
    (insertStable less a l).Pairwise (fun x y => less y x = false) := by
  induction l with
  | nil => simp [insertStable]
  | cons b l ih =>
    rw [List.pairwise_cons] at hl
    simp only [insertStable]
    by_cases hba : less b a = true
    · simp only [hba, if_true]
      rw [List.pairwise_cons]
      refine ⟨?_, ih hl.2⟩
      intro y hy
      rcases List.mem_cons.mp ((insertStable_perm less a l).mem_iff.mp hy) with rfl | hy
      · exact hasymm _ _ hba
      · exact hl.1 y hy
    · have hba' : less b a = false := by simpa using hba
      simp only [hba', Bool.false_eq_true, if_false]
      rw [List.pairwise_cons]
      refine ⟨?_, List.pairwise_cons.mpr hl⟩
      intro y hy
      rcases List.mem_cons.mp hy with rfl | hy
      · exact hba'
      · exact htrans a b y hba' (hl.1 y hy)

theorem SliceStable_sorted {α : Type} (less : α → α → Bool)
    (hasymm : ∀ x y, less x y = true → less y x = false)
    (htrans : ∀ x y z, less y x = false → less z y = false → less z x = false)
    (l : List α) : (SliceStable less l).Pairwise (fun x y => less y x = false) := by
  induction l with
  | nil => simp [SliceStable]
  | cons a l ih => exact insertStable_sorted less hasymm htrans a _ ih

/-- Two lists with the same entries, both ascending for a relation that is antisymmetric on
these entries, are the same list. -/
theorem eq_of_perm_of_pairwise {α : Type} (r : α → α → Prop) :
    ∀ (l1 l2 : List α), l1.Perm l2 → l1.Pairwise r → l2.Pairwise r →
      (∀ x ∈ l1, ∀ y ∈ l1, r x y → r y x → x = y) → l1 = l2 := by
  intro l1
  induction l1 with
  | nil =>
    intro l2 hp _ _ _
    exact hp.nil_eq
  | cons a t1 ih =>
    intro l2 hp h1 h2 hanti
    cases l2 with
    | nil => exact absurd hp.length_eq (by simp)
    | cons b t2 =>
      rw [List.pairwise_cons] at h1 h2
      have hab : a = b := by
        by_contra hne
        have ha : a ∈ t2 := by
          rcases List.mem_cons.mp (hp.mem_iff.mp (List.mem_cons_self a t1)) with h | h
          · exact absurd h hne
          · exact h
        have hb : b ∈ t1 := by
          rcases List.mem_cons.mp (hp.mem_iff.mpr (List.mem_cons_self b t2)) with h | h
          · exact absurd h.symm hne
          · exact h
        exact hne (hanti a (List.mem_cons_self a t1) b (List.mem_cons_of_mem a hb)
          (h1.1 b hb) (h2.1 a ha))
      subst hab
      rw [ih t2 (List.Perm.cons_inv hp) h1.2 h2.2
        (fun x hx y hy => hanti x (List.mem_cons_of_mem a hx) y (List.mem_cons_of_mem a hy))]

theorem hashLess_asymm (x y : FileResult) (h : hashLess x y = true) : hashLess y x = false :=
  bytesLess_asymm _ _ h

theorem hashLess_le_trans (x y z : FileResult) (h : hashLess y x = false)
    (h' : hashLess z y = false) : hashLess z x = false :=
  bytesLess_le_trans _ _ _ h h'

/-- The sorted contents of two enumerations of the same files agree when files with equal
hash have equal content. -/
theorem sorted_contents_eq (l1 l2 : List FileResult) (hp : l1.Perm l2)
    (hsame : ∀ x ∈ l1, ∀ y ∈ l1, x.hash = y.hash → x.data = y.data) :
    (SliceStable hashLess l1).flatMap FileResult.data =
      (SliceStable hashLess l2).flatMap FileResult.data := by
  have hs1 := SliceStable_sorted hashLess hashLess_asymm hashLess_le_trans l1
  have hs2 := SliceStable_sorted hashLess hashLess_asymm hashLess_le_trans l2
  have hp1 := SliceStable_perm hashLess l1
  have hp2 := SliceStable_perm hashLess l2
  have hperm : ((SliceStable hashLess l1).map (fun f => (f.hash, f.data))).Perm
      ((SliceStable hashLess l2).map (fun f => (f.hash, f.data))) :=
    ((hp1.trans hp).trans hp2.symm).map _
  have heq := eq_of_perm_of_pairwise
    (fun p q : String × List Nat => bytesLess (bytes q.1) (bytes p.1) = false) _ _ hperm
    (List.pairwise_map.mpr hs1) (List.pairwise_map.mpr hs2)
    (by
      intro p hpm q hqm hpq hqp
      obtain ⟨x, hx, rfl⟩ := List.mem_map.mp hpm
      obtain ⟨y, hy, rfl⟩ := List.mem_map.mp hqm
      have hh : x.hash = y.hash := bytes_inj _ _ (bytesLess_antisymm _ _ hqp hpq)
      have hd := hsame x (hp1.mem_iff.mp hx) y (hp1.mem_iff.mp hy) hh
      simp only [hh, hd])
  have hdata := congrArg (fun l => l.flatMap Prod.snd) heq
  simpa [List.flatMap_map] using hdata

/-- The contents in the order of the sort are the contents in every ascending arrangement
of the same files, when files with equal hash have equal content. -/
theorem sorted_contents_unique (l sorted : List FileResult) (hp : sorted.Perm l)
    (hs : sorted.Pairwise (fun x y => ¬ bytes y.hash < bytes x.hash))
    (hsame : ∀ x ∈ l, ∀ y ∈ l, x.hash = y.hash → x.data = y.data) :
    (SliceStable hashLess l).flatMap FileResult.data = sorted.flatMap FileResult.data := by
  have hs1 := SliceStable_sorted hashLess hashLess_asymm hashLess_le_trans l
  have hp1 := SliceStable_perm hashLess l
  have hs2 : sorted.Pairwise (fun x y => hashLess y x = false) := by
    refine hs.imp ?_
    intro x y hxy
    cases hb : hashLess y x with
    | false => rfl
    | true => exact absurd ((bytesLess_iff_lt _ _).mp hb) hxy
  have hperm : ((SliceStable hashLess l).map (fun f => (f.hash, f.data))).Perm
      (sorted.map (fun f => (f.hash, f.data))) :=
    (hp1.trans hp.symm).map _
  have heq := eq_of_perm_of_pairwise
    (fun p q : String × List Nat => bytesLess (bytes q.1) (bytes p.1) = false) _ _ hperm
    (List.pairwise_map.mpr hs1) (List.pairwise_map.mpr hs2)
    (by
      intro p hpm q hqm hpq hqp
      obtain ⟨x, hx, rfl⟩ := List.mem_map.mp hpm
      obtain ⟨y, hy, rfl⟩ := List.mem_map.mp hqm
      have hh : x.hash = y.hash := bytes_inj _ _ (bytesLess_antisymm _ _ hqp hpq)
      have hd := hsame x (hp1.mem_iff.mp hx) y (hp1.mem_iff.mp hy) hh
      simp only [hh, hd])
  have hdata := congrArg (fun l => l.flatMap Prod.snd) heq
  simpa [List.flatMap_map] using hdata

theorem insertStable_flatMap_data (less : FileResult → FileResult → Bool) (a : FileResult)
    (ha : a.data = []) (l : List FileResult) :
    (insertStable less a l).flatMap FileResult.data = l.flatMap FileResult.data := by
  induction l with
  | nil => simp [insertStable, ha]
  | cons b l ih =>
    simp only [insertStable]
    split_ifs
    · simp only [List.flatMap_cons, ih]
    · simp [List.flatMap_cons, ha]

theorem SliceStable_placeholders (less : FileResult → FileResult → Bool) (n : Nat)
    (l : List FileResult) :
    (SliceStable less (List.replicate n FileResult.zero ++ l)).flatMap FileResult.data =
      (SliceStable less l).flatMap FileResult.data := by
  induction n with
  | zero => simp
  | succ n ih =>
    rw [List.replicate_succ, List.cons_append]
    simp only [SliceStable]
    rw [insertStable_flatMap_data less FileResult.zero rfl, ih]

theorem foldl_append_snd {α β : Type} (xs : List (α × β)) (init : List β) :
    xs.foldl (fun l kv => l ++ [kv.2]) init = init ++ xs.map Prod.snd := by
  induction xs generalizing init with
  | nil => simp
  | cons x xs ih => simp [ih]

theorem foldl_write (l : List FileResult) (written : List Nat) :
    l.foldl (fun written file => written ++ file.data) written =
      written ++ l.flatMap FileResult.data := by
  induction l generalizing written with
  | nil => simp
  | cons x xs ih => simp [ih, List.flatMap_cons]

/-- Files whose hash field is the hex SHA-256 of their content, as `ReadLocalFiles` stores
them, have equal content whenever they have equal hash, unless SHA-256 collides on two of
them. -/
theorem same_content_of_digests (files : GoMap FileResult)
    (hwf : ∀ kv ∈ files, kv.2.hash = EncodeToString (Sum256 kv.2.data))
    (hfree : ∀ kv1 ∈ files, ∀ kv2 ∈ files,
      Sum256 kv1.2.data = Sum256 kv2.2.data → kv1.2.data = kv2.2.data) :
    ∀ kv1 ∈ files, ∀ kv2 ∈ files, kv1.2.hash = kv2.2.hash → kv1.2.data = kv2.2.data := by
  intro kv1 h1 kv2 h2 hh
  apply hfree kv1 h1 kv2 h2
  rw [hwf kv1 h1, hwf kv2 h2] at hh
  exact EncodeToString_inj _ _ (Sum256_lt _) (Sum256_lt _) hh

/-- `HashLocalFiles` without its placeholders. -/
theorem HashLocalFiles_eq (order : List Nat) (files : GoMap FileResult) :
    HashLocalFiles order files =
      EncodeToString (Sum256
        ((SliceStable hashLess ((rangeOrder order files).map Prod.snd)).flatMap
          FileResult.data)) := by
  simp only [HashLocalFiles, foldl_append_snd, foldl_write, List.nil_append,
    SliceStable_placeholders]

/-- The content type sent for a file: never empty, the type of the extension table when it
has a non-empty one, the generic binary type when it has none. -/
theorem contentTypeSent_of_table (w : World) (input : UploadLocalFilesInput)
    (file : FileResult) :
    contentTypeSent (uploadInputOf w input file) ≠ "" ∧
    (∀ t, w.mimeTypes (Ext file.path) = some t → t ≠ "" →
      contentTypeSent (uploadInputOf w input file) = t) ∧
    (w.mimeTypes (Ext file.path) = none →
      contentTypeSent (uploadInputOf w input file) = "application/octet-stream") := by
  have hsent : ∀ c : String, c ≠ "" →
      (if len c > 0 then c else "application/octet-stream") = c := by
    intro c hc
    rw [if_pos ((len_pos_iff c).mpr hc)]
  have hdefault : ∀ c : String, c = "" →
      (if len c > 0 then c else "application/octet-stream") = "application/octet-stream" := by
    intro c hc
    have : ¬ len c > 0 := fun hl => (len_pos_iff c).mp hl hc
    rw [if_neg this]
  refine ⟨?_, ?_, ?_⟩
  · unfold contentTypeSent
    by_cases hc : (uploadInputOf w input file).ContentType = ""
    · rw [hdefault _ hc]
      decide
    · rw [hsent _ hc]
      exact hc
  · intro t ht hne
    rcases contentType_of_table w input file with ⟨t', h1, h2⟩ | ⟨h1, _⟩
    · have htt : t' = t := Option.some.inj (h1.symm.trans ht)
      unfold contentTypeSent
      rw [hsent _ (by rw [h2, htt]; exact hne), h2, htt]
    · rw [h1] at ht
      cases ht
  · intro hnone
    rcases contentType_of_table w input file with ⟨t', h1, _⟩ | ⟨_, h2⟩
    · rw [hnone] at h1
      cases h1
    · unfold contentTypeSent
      exact hdefault _ h2

theorem idString_data (d : s3extraImmutableAssetsData) :
    (idString d).data =
      d.Bucket.Value.data ++ '-' :: (d.Glob.Value.data ++ '-' :: d.Prefix.Value.data) := by
  simp [idString, String.data_append]

/-- Two character lists cut at a delimiter that neither part before the cut holds are cut at
the same place. -/
theorem split_at_delimiter (c : Char) : ∀ (a b x y : List Char), c ∉ a → c ∉ b →
    a ++ c :: x = b ++ c :: y → a = b ∧ x = y
  | [], [], x, y, _, _, h => ⟨rfl, by simpa using h⟩
  | [], d :: b, x, y, _, hb, h => by
    simp only [List.nil_append, List.cons_append, List.cons.injEq] at h
    exact absurd (List.mem_cons.mpr (Or.inl h.1)) hb
  | d :: a, [], x, y, ha, _, h => by
    simp only [List.nil_append, List.cons_append, List.cons.injEq] at h
    exact absurd (List.mem_cons.mpr (Or.inl h.1.symm)) ha
  | d :: a, e :: b, x, y, ha, hb, h => by
    simp only [List.cons_append, List.cons.injEq] at h
    obtain ⟨hab, hxy⟩ := split_at_delimiter c a b x y
      (fun hc => ha (List.mem_cons_of_mem _ hc)) (fun hc => hb (List.mem_cons_of_mem _ hc)) h.2
    exact ⟨by rw [h.1, hab], hxy⟩

/-- When neither bucket nor glob holds the delimiter, the string that `id` hashes determines
bucket, glob and prefix. -/
theorem idString_inj_without_delimiter (d1 d2 : s3extraImmutableAssetsData)
    (hb1 : '-' ∉ d1.Bucket.Value.data) (hb2 : '-' ∉ d2.Bucket.Value.data)
    (hg1 : '-' ∉ d1.Glob.Value.data) (hg2 : '-' ∉ d2.Glob.Value.data)
    (h : idString d1 = idString d2) :
    d1.Bucket.Value = d2.Bucket.Value ∧ d1.Glob.Value = d2.Glob.Value ∧
      d1.Prefix.Value = d2.Prefix.Value := by
  have hd := congrArg String.data h
  rw [idString_data, idString_data] at hd
  obtain ⟨hb, hrest⟩ := split_at_delimiter '-' _ _ _ _ hb1 hb2 hd
  obtain ⟨hg, hp⟩ := split_at_delimiter '-' _ _ _ _ hg1 hg2 hrest
  exact ⟨String.ext hb, String.ext hg, String.ext hp⟩

theorem id_length (d : s3extraImmutableAssetsData) : (s3extraImmutableAssets.id d).length = 64 := by
  rw [s3extraImmutableAssets.id, EncodeToString_length, Sum256_length]

/-! ## Discovery -/

/-- C7: when the glob step gives no path, `ReadLocalFiles` returns the no-match error and
its only call is the glob call (no file is read); and every map it returns as a success is
non-empty. -/
theorem ReadLocalFiles_never_empty (w : World) (sched : List Nat) (g : String) :
    (w.Glob g = .ok [] →
      ReadLocalFiles w sched g =
        (.error "Could not find any files that match the provided glob pattern.",
          [Event.Glob g])) ∧
    (∀ files log, ReadLocalFiles w sched g = (.ok files, log) →
      files ≠ [] ∧ 0 < files.length) := by
  constructor
  · intro hg
    simp [ReadLocalFiles, hg]
  · intro files log h
    obtain ⟨paths, _, hne, _, hfiles, _⟩ := ReadLocalFiles_ok w sched g files log h
    have hrun : rangeOrder sched paths ≠ [] := by
      intro hnil
      have := (rangeOrder_perm sched paths).length_eq
      rw [hnil] at this
      exact hne (List.length_eq_zero.mp this.symm)
    have hfne : files ≠ [] := by
      obtain ⟨p, hp⟩ := List.exists_mem_of_ne_nil _ hrun
      have hget := foldl_set_get_or (fun p => p)
        (fun p => (⟨p, EncodeToString (Sum256 (w.content p)), w.content p⟩ : FileResult))
        (rangeOrder sched paths) [] p (by simpa using hp)
      rw [← hfiles] at hget
      intro hnil
      rw [hnil] at hget
      simp [GoMap.get] at hget
    exact ⟨hfne, List.length_pos.mpr hfne⟩

/-- C7 at the pattern "nonexistent/**/*.xyz", which matches nothing in the example world,
and at the pattern "**/*.{txt,js}", which matches two files. -/
theorem ReadLocalFiles_never_empty_witness :
    ReadLocalFiles worldFixtures [1] "nonexistent/**/*.xyz" =
      (.error "Could not find any files that match the provided glob pattern.",
        [Event.Glob "nonexistent/**/*.xyz"]) ∧
    ∃ files log, ReadLocalFiles worldFixtures [1] "**/*.{txt,js}" = (.ok files, log) ∧
      files ≠ [] ∧ 0 < files.length := by
  refine ⟨(ReadLocalFiles_never_empty worldFixtures [1] "nonexistent/**/*.xyz").1 rfl, ?_⟩
  obtain ⟨files, hf⟩ := ReadLocalFiles_succeeds worldFixtures [1] "**/*.{txt,js}"
    ["fixtures/hello.txt", "fixtures/static/main.js"] rfl (by decide)
    (by
      intro p hp
      simp only [List.mem_cons, List.mem_singleton, List.not_mem_nil, or_false] at hp
      rcases hp with rfl | rfl <;> exact ⟨_, rfl⟩)
  exact ⟨files, _, hf,
    (ReadLocalFiles_never_empty worldFixtures [1] "**/*.{txt,js}").2 files _ hf⟩

/-- C9: when `ReadLocalFiles` succeeds on N distinct matched paths, the `file_hashes` map
that `ToTerraformState` makes of its result has N entries, its keys are the matched paths,
and the value of each path is the hex SHA-256 of the content read for it, 64 lowercase hex
digits; and on every map `ToTerraformState` keeps the keys and gives each key the hash field
of its file. -/
theorem file_hashes_of_discovery (w : World) (sched order : List Nat) (g : String)
    (paths : List String) (files : GoMap FileResult) (log : List Event)
    (hg : w.Glob g = .ok paths) (hnd : paths.Nodup)
    (hok : ReadLocalFiles w sched g = (.ok files, log)) :
    (ToTerraformState order files).length = paths.length ∧
    (ToTerraformState order files).keys.Perm paths ∧
    (∀ p ∈ paths, ∃ data, w.ReadFile p = .ok data ∧
      (ToTerraformState order files).get p = some (EncodeToString (Sum256 data)) ∧
      (EncodeToString (Sum256 data)).length = 64 ∧
      ∀ c ∈ (EncodeToString (Sum256 data)).toList, c ∈ "0123456789abcdef".toList) ∧
    (∀ m : GoMap FileResult, m.keys.Nodup →
      (ToTerraformState order m).keys.Perm m.keys ∧
      ∀ p f, m.get p = some f → (ToTerraformState order m).get p = some f.hash) := by
  obtain ⟨hkeys, hfile⟩ := ReadLocalFiles_files w sched g paths files log hg hnd hok
  have hperm := rangeOrder_perm sched paths
  have hfnd : files.keys.Nodup := by
    rw [hkeys]
    exact hperm.nodup_iff.mpr hnd
  obtain ⟨_, hst, hget⟩ := ToTerraformState_spec order files hfnd
  have hkp : (ToTerraformState order files).keys.Perm paths := by
    refine hst.trans ?_
    rw [hkeys]
    exact hperm
  refine ⟨?_, hkp, ?_, ?_⟩
  · have := hkp.length_eq
    simpa [GoMap.keys] using this
  · intro p hp
    obtain ⟨data, hd, hf⟩ := hfile p hp
    refine ⟨data, hd, hget p _ hf, ?_, EncodeToString_hex _⟩
    rw [EncodeToString_length, Sum256_length]
  · intro m hm
    exact ⟨(ToTerraformState_spec order m hm).2.1, (ToTerraformState_spec order m hm).2.2⟩

/-- C9 at the pattern "**/*" of the example world, which matches three files: the
`file_hashes` map has three entries and `LICENSE` carries the digest of its content. -/
theorem file_hashes_of_discovery_witness :
    ∃ files log, ReadLocalFiles worldFixtures [1] "**/*" = (.ok files, log) ∧
      (ToTerraformState [] files).length = 3 ∧
      (ToTerraformState [] files).get "LICENSE" =
        some "e5dcffe836b6ec8a58e492419b550e65fb8cbdc308503979e5dacb33ac7ea3b7" := by
  obtain ⟨files, hf⟩ := ReadLocalFiles_succeeds worldFixtures [1] "**/*"
    ["fixtures/hello.txt", "fixtures/static/main.js", "LICENSE"] rfl (by decide)
    (by
      intro p hp
      simp only [List.mem_cons, List.mem_singleton, List.not_mem_nil, or_false] at hp
      rcases hp with rfl | rfl | rfl <;> exact ⟨_, rfl⟩)
  have h := file_hashes_of_discovery worldFixtures [1] [] "**/*"
    ["fixtures/hello.txt", "fixtures/static/main.js", "LICENSE"] files _ rfl (by decide) hf
  refine ⟨files, _, hf, h.1, ?_⟩
  obtain ⟨data, hd, hget, _⟩ := h.2.2.1 "LICENSE" (by decide)
  have hdata : data = bytes "MIT" := (Except.ok.inj hd).symm
  rw [hget, hdata]
  decide

/-! ## The aggregate digest -/

/-- C10: on files whose hash is the hex SHA-256 of their content, as `ReadLocalFiles`
stores them, and on whose contents SHA-256 does not collide, `HashLocalFiles` returns the
same token for every two enumerations of the same entries and every two visiting orders;
the token is the hex SHA-256 of the contents joined in ascending order of hash, whichever
ascending arrangement of the files is taken, and the placeholder entries leave no trace in
it. -/
theorem HashLocalFiles_order_independent (files1 files2 : GoMap FileResult)
    (order1 order2 : List Nat) (hperm : files1.Perm files2)
    (hwf : ∀ kv ∈ files1, kv.2.hash = EncodeToString (Sum256 kv.2.data))
    (hfree : ∀ kv1 ∈ files1, ∀ kv2 ∈ files1,
      Sum256 kv1.2.data = Sum256 kv2.2.data → kv1.2.data = kv2.2.data) :
    HashLocalFiles order1 files1 = HashLocalFiles order2 files2 ∧
    ∀ sorted : List FileResult, sorted.Perm (files1.map Prod.snd) →
      sorted.Pairwise (fun x y => ¬ bytes y.hash < bytes x.hash) →
      HashLocalFiles order1 files1 =
        EncodeToString (Sum256 (sorted.flatMap FileResult.data)) := by
  have hsame := same_content_of_digests files1 hwf hfree
  have hsame' : ∀ x ∈ (rangeOrder order1 files1).map Prod.snd,
      ∀ y ∈ (rangeOrder order1 files1).map Prod.snd, x.hash = y.hash → x.data = y.data := by
    intro x hx y hy hxy
    obtain ⟨kv1, h1, rfl⟩ := List.mem_map.mp hx
    obtain ⟨kv2, h2, rfl⟩ := List.mem_map.mp hy
    exact hsame kv1 ((rangeOrder_perm order1 files1).mem_iff.mp h1) kv2
      ((rangeOrder_perm order1 files1).mem_iff.mp h2) hxy
  constructor
  · rw [HashLocalFiles_eq, HashLocalFiles_eq]
    rw [sorted_contents_eq _ ((rangeOrder order2 files2).map Prod.snd)
      ((((rangeOrder_perm order1 files1).trans hperm).trans
        (rangeOrder_perm order2 files2).symm).map Prod.snd) hsame']
  · intro sorted hp hs
    rw [HashLocalFiles_eq]
    rw [sorted_contents_unique _ sorted
      (hp.trans ((rangeOrder_perm order1 files1).map Prod.snd).symm) hs hsame']

/-- C10 at the three files of the example world: visited in two different orders they give
the same token, the digest of the three contents in ascending order of their hashes
(`2cf2…` of "hello", `e5dc…` of "MIT", `ea1a…` of "main()"). -/
theorem HashLocalFiles_order_independent_witness :
    HashLocalFiles [2, 1] filesFixtures = HashLocalFiles [] filesFixtures ∧
    HashLocalFiles [2, 1] filesFixtures =
      EncodeToString (Sum256 (bytes "helloMITmain()")) ∧
    HashLocalFiles [2, 1] filesFixtures =
      "f2400f8c3dc001faee912f6eb80a596cc722c1c2f200d679e03cdfddb7af6c09" := by
  have hwf : ∀ kv ∈ filesFixtures, kv.2.hash = EncodeToString (Sum256 kv.2.data) := by
    decide
  have hdistinct : ∀ kv1 ∈ filesFixtures, ∀ kv2 ∈ filesFixtures,
      kv1.2.hash = kv2.2.hash → kv1.2.data = kv2.2.data := by
    decide
  have h := HashLocalFiles_order_independent filesFixtures filesFixtures [2, 1] []
    (List.Perm.refl _) hwf
    (fun kv1 h1 kv2 h2 hsum =>
      hdistinct kv1 h1 kv2 h2 (by rw [hwf kv1 h1, hwf kv2 h2, hsum]))
  have hcat : [fileHello, fileLicense, fileMainJs].flatMap FileResult.data =
      bytes "helloMITmain()" := by
    decide
  have htoken : HashLocalFiles [2, 1] filesFixtures =
      EncodeToString (Sum256 (bytes "helloMITmain()")) := by
    rw [← hcat]
    exact h.2 [fileHello, fileLicense, fileMainJs] (by decide) (by decide)
  refine ⟨h.1, htoken, ?_⟩
  rw [htoken]
  decide

/-! ## Upload -/

/-- C6: every put-object request and every existence check that `UploadLocalFiles` makes
is for one of the files of its input and its key is the path of that file when the prefix
is empty and prefix, slash, path otherwise; when the upload ends without error every file
has had a put-object request and an existence check under that key. -/
theorem UploadLocalFiles_object_keys (w : World) (order : List Nat)
    (input : UploadLocalFilesInput) (log : List Event) :
    ∃ new, (UploadLocalFiles w order input log).2 = log ++ new ∧
      (∀ p, Event.Upload p ∈ new → ∃ kv ∈ input.Files,
        p.Key = objectKey input.Configuration.Prefix kv.2.path ∧ p.Body = kv.2.data) ∧
      (∀ h d, Event.Wait h d ∈ new → ∃ kv ∈ input.Files,
        h.Key = objectKey input.Configuration.Prefix kv.2.path) ∧
      ((∃ r, (UploadLocalFiles w order input log).1 = .ok r) →
        ∀ kv ∈ input.Files,
          (∃ p, Event.Upload p ∈ new ∧
            p.Key = objectKey input.Configuration.Prefix kv.2.path ∧ p.Body = kv.2.data) ∧
          (∃ h d, Event.Wait h d ∈ new ∧
            h.Key = objectKey input.Configuration.Prefix kv.2.path)) := by
  obtain ⟨new, hlog, hsound, hall⟩ := UploadLocalFiles_log w order input log
  refine ⟨new, hlog, ?_, ?_, ?_⟩
  · intro p hp
    obtain ⟨kv, hkv, h | h⟩ := hsound _ hp
    · refine ⟨kv, hkv, ?_⟩
      rw [Event.Upload.inj h]
      exact ⟨uploadKey_eq_objectKey input kv.2, rfl⟩
    · cases h
  · intro h d hh
    obtain ⟨kv, hkv, h' | h'⟩ := hsound _ hh
    · cases h'
    · refine ⟨kv, hkv, ?_⟩
      rw [(Event.Wait.inj h').1]
      exact uploadKey_eq_objectKey input kv.2
  · intro hr kv hkv
    obtain ⟨hu, hw⟩ := hall hr kv hkv
    exact ⟨⟨_, hu, uploadKey_eq_objectKey input kv.2, rfl⟩,
      ⟨_, _, hw, uploadKey_eq_objectKey input kv.2⟩⟩

/-- C6 at the path `fixtures/hello.txt`: with the prefix "updated" the put-object request
and the existence check use the key `updated/fixtures/hello.txt`, with the empty prefix the
key `fixtures/hello.txt`. -/
theorem UploadLocalFiles_object_keys_witness :
    ((∃ p, Event.Upload p ∈ (UploadLocalFiles worldFixtures [1] inputUpdated []).2 ∧
        p.Key = "updated/fixtures/hello.txt" ∧ p.Body = bytes "hello") ∧
      (∃ h d, Event.Wait h d ∈ (UploadLocalFiles worldFixtures [1] inputUpdated []).2 ∧
        h.Key = "updated/fixtures/hello.txt")) ∧
    ((∃ p, Event.Upload p ∈ (UploadLocalFiles worldFixtures [1] inputPlain []).2 ∧
        p.Key = "fixtures/hello.txt" ∧ p.Body = bytes "hello") ∧
      (∃ h d, Event.Wait h d ∈ (UploadLocalFiles worldFixtures [1] inputPlain []).2 ∧
        h.Key = "fixtures/hello.txt")) := by
  constructor
  · obtain ⟨new, hlog, _, _, hall⟩ :=
      UploadLocalFiles_object_keys worldFixtures [1] inputUpdated []
    rw [hlog]
    simpa using hall ⟨_, rfl⟩ ("fixtures/hello.txt", fileHello) (by decide)
  · obtain ⟨new, hlog, _, _, hall⟩ :=
      UploadLocalFiles_object_keys worldFixtures [1] inputPlain []
    rw [hlog]
    simpa using hall ⟨_, rfl⟩ ("fixtures/hello.txt", fileHello) (by decide)

/-- C8: every put-object request that `UploadLocalFiles` makes is for one of the files of
its input, and the content type sent with it is never empty: it is the type the extension
table has for the extension of the path of that file, and the generic binary type
`application/octet-stream` when the table has none (a path without extension has the
extension "", which the table is asked like any other); when the upload ends without error
every file has had such a request. -/
theorem UploadLocalFiles_content_type_sent (w : World) (order : List Nat)
    (input : UploadLocalFilesInput) (log : List Event) :
    ∃ new, (UploadLocalFiles w order input log).2 = log ++ new ∧
      (∀ p, Event.Upload p ∈ new → ∃ kv ∈ input.Files, p.Body = kv.2.data ∧
        p.Key = objectKey input.Configuration.Prefix kv.2.path ∧
        contentTypeSent p ≠ "" ∧
        (∀ t, w.mimeTypes (Ext kv.2.path) = some t → t ≠ "" → contentTypeSent p = t) ∧
        (w.mimeTypes (Ext kv.2.path) = none →
          contentTypeSent p = "application/octet-stream")) ∧
      ((∃ r, (UploadLocalFiles w order input log).1 = .ok r) →
        ∀ kv ∈ input.Files, ∃ p, Event.Upload p ∈ new ∧ p.Body = kv.2.data ∧
          p.Key = objectKey input.Configuration.Prefix kv.2.path ∧
          contentTypeSent p ≠ "" ∧
          (∀ t, w.mimeTypes (Ext kv.2.path) = some t → t ≠ "" → contentTypeSent p = t) ∧
          (w.mimeTypes (Ext kv.2.path) = none →
            contentTypeSent p = "application/octet-stream")) := by
  obtain ⟨new, hlog, hsound, hall⟩ := UploadLocalFiles_log w order input log
  refine ⟨new, hlog, ?_, ?_⟩
  · intro p hp
    obtain ⟨kv, hkv, h | h⟩ := hsound _ hp
    · refine ⟨kv, hkv, ?_⟩
      rw [Event.Upload.inj h]
      exact ⟨rfl, uploadKey_eq_objectKey input kv.2, contentTypeSent_of_table w input kv.2⟩
    · cases h
  · intro hr kv hkv
    exact ⟨_, (hall hr kv hkv).1, rfl, uploadKey_eq_objectKey input kv.2,
      contentTypeSent_of_table w input kv.2⟩

/-- C8 at the files of the example world: `fixtures/static/main.js` is sent as
`application/javascript`, `fixtures/hello.txt` as `text/plain; charset=utf-8`, and
`LICENSE`, which has no extension and no type in the table, as
`application/octet-stream`. -/
theorem UploadLocalFiles_content_type_sent_witness :
    (∃ p, Event.Upload p ∈ (UploadLocalFiles worldFixtures [1] inputPlain []).2 ∧
      p.Key = "fixtures/static/main.js" ∧ contentTypeSent p = "application/javascript") ∧
    (∃ p, Event.Upload p ∈ (UploadLocalFiles worldFixtures [1] inputPlain []).2 ∧
      p.Key = "fixtures/hello.txt" ∧ contentTypeSent p = "text/plain; charset=utf-8") ∧
    (∃ p, Event.Upload p ∈ (UploadLocalFiles worldFixtures [1] inputPlain []).2 ∧
      p.Key = "LICENSE" ∧ contentTypeSent p = "application/octet-stream") := by
  obtain ⟨new, hlog, _, hall⟩ :=
    UploadLocalFiles_content_type_sent worldFixtures [1] inputPlain []
  rw [hlog]
  refine ⟨?_, ?_, ?_⟩
  · obtain ⟨p, hp, _, hk, _, ht, _⟩ :=
      hall ⟨_, rfl⟩ ("fixtures/static/main.js", fileMainJs) (by decide)
    exact ⟨p, by simpa using hp, hk, ht "application/javascript" rfl (by decide)⟩
  · obtain ⟨p, hp, _, hk, _, ht, _⟩ :=
      hall ⟨_, rfl⟩ ("fixtures/hello.txt", fileHello) (by decide)
    exact ⟨p, by simpa using hp, hk, ht "text/plain; charset=utf-8" rfl (by decide)⟩
  · obtain ⟨p, hp, _, hk, _, _, hn⟩ := hall ⟨_, rfl⟩ ("LICENSE", fileLicense) (by decide)
    exact ⟨p, by simpa using hp, hk, hn rfl⟩

/-! ## The lifecycle -/

/-- C1: a Create whose glob matches nothing, a Create whose upload is refused, and the same
two for Update, all decode without error, fail inside `create`, and still end with the
record written to the response state by `State.Set`. -/
theorem state_written_after_failed_create :
    (ReadLocalFiles worldFixtures scheduleExample.goroutines dataNoMatch.Glob.Value).1 =
      .error "Could not find any files that match the provided glob pattern." ∧
    (Create worldFixtures scheduleExample ⟨[], dataNoMatch⟩ ⟨[], none⟩).resp.State =
      some dataNoMatch ∧
    (Update worldFixtures scheduleExample ⟨[], dataNoMatch⟩ ⟨[], some dataTagged⟩).resp.State =
      some dataNoMatch ∧
    (create worldDenied scheduleExample [] dataTxtJs).1 =
      [⟨Severity.Error, "Upload error",
        "Failed to upload files to bucket with error: AccessDenied"⟩] ∧
    (Create worldDenied scheduleExample ⟨[], dataTxtJs⟩ ⟨[], none⟩).resp.State =
      some dataTxtJs ∧
    (Update worldDenied scheduleExample ⟨[], dataTxtJs⟩ ⟨[], some dataTagged⟩).resp.State =
      some dataTxtJs := by
  refine ⟨rfl, ?_⟩
  decide

/-- C2: a Create, a Read and an Update whose glob matches nothing, and a Create and an
Update whose upload is refused, hand back a response without any diagnostic; the error is
added to the local diagnostics only. -/
theorem failure_missing_from_response_diagnostics :
    (create worldFixtures scheduleExample [] dataNoMatch).1 =
      [⟨Severity.Error, "Local files error",
        "Failed to load local files with error: " ++
          "Could not find any files that match the provided glob pattern."⟩] ∧
    (Create worldFixtures scheduleExample ⟨[], dataNoMatch⟩ ⟨[], none⟩).resp.Diagnostics = [] ∧
    (Update worldFixtures scheduleExample ⟨[], dataNoMatch⟩
      ⟨[], some dataTagged⟩).resp.Diagnostics = [] ∧
    (Read worldFixtures scheduleExample ⟨[], dataNoMatch⟩ ⟨[], some dataNoMatch⟩).diags =
      [⟨Severity.Error, "Local files error",
        "Failed to load local files with error: " ++
          "Could not find any files that match the provided glob pattern."⟩] ∧
    (Read worldFixtures scheduleExample ⟨[], dataNoMatch⟩
      ⟨[], some dataNoMatch⟩).resp.Diagnostics = [] ∧
    (Create worldDenied scheduleExample ⟨[], dataTxtJs⟩ ⟨[], none⟩).resp.Diagnostics = [] ∧
    (Update worldDenied scheduleExample ⟨[], dataTxtJs⟩
      ⟨[], some dataTagged⟩).resp.Diagnostics = [] := by
  decide

/-- What `Delete` does when the prior state decodes without error: it makes no call to the
filesystem or the object store, it clears the state, it hands back the diagnostics of the
decoding and nothing more, and its warning sits in the local diagnostics. -/
theorem Delete_outcome (req : Decoded) (resp : Response)
    (h : Diagnostics.HasError (Diagnostics.Append resp.Diagnostics req.diags) = false) :
    (Delete req resp).log = [] ∧
    (Delete req resp).resp.State = none ∧
    (Delete req resp).resp.Diagnostics = Diagnostics.Append resp.Diagnostics req.diags ∧
    (Delete req resp).diags =
      Diagnostics.AddWarning req.diags "Not deleting files"
        ("This resource treats its files as immutable. To delete previously managed files, " ++
          "either remove them from the bucket manually or allow them to expire based on the " ++
          "bucket lifecycle policy.") := by
  simp [Delete, h]

/-- C11: a Delete whose prior state decodes without error makes no call to the filesystem or
the object store and clears the state, but the response it hands back has no diagnostic at
all; the warning that the objects are left in the store is in the local diagnostics only. -/
theorem warning_missing_from_delete_response :
    (Delete ⟨[], dataTagged⟩ ⟨[], some dataTagged⟩).log = [] ∧
    (Delete ⟨[], dataTagged⟩ ⟨[], some dataTagged⟩).resp.State = none ∧
    (Delete ⟨[], dataTagged⟩ ⟨[], some dataTagged⟩).resp.Diagnostics = [] ∧
    (Delete ⟨[], dataTagged⟩ ⟨[], some dataTagged⟩).diags =
      [⟨Severity.Warning, "Not deleting files",
        "This resource treats its files as immutable. To delete previously managed files, " ++
          "either remove them from the bucket manually or allow them to expire based on the " ++
          "bucket lifecycle policy."⟩] := by
  decide

/-! ## The resource identity -/

/-- C3: `id` depends on the bucket, glob and prefix values only, whatever the other fields of
the record are; it is the hex encoding of the SHA-256 of the bytes of
`bucket-glob-prefix`, and so is 64 characters, each a lowercase hex digit. -/
theorem id_function_of_bucket_glob_prefix (d1 d2 : s3extraImmutableAssetsData)
    (hb : d1.Bucket.Value = d2.Bucket.Value) (hg : d1.Glob.Value = d2.Glob.Value)
    (hp : d1.Prefix.Value = d2.Prefix.Value) :
    s3extraImmutableAssets.id d1 = s3extraImmutableAssets.id d2 ∧
    s3extraImmutableAssets.id d1 =
      EncodeToString (Sum256 (bytes
        (d1.Bucket.Value ++ "-" ++ d1.Glob.Value ++ "-" ++ d1.Prefix.Value))) ∧
    (s3extraImmutableAssets.id d1).length = 64 ∧
    ∀ c ∈ (s3extraImmutableAssets.id d1).toList, c ∈ "0123456789abcdef".toList := by
  refine ⟨?_, rfl, id_length d1, EncodeToString_hex _⟩
  simp only [s3extraImmutableAssets.id, idString, hb, hg, hp]

/-- C3 at two records that share bucket, glob and prefix and differ in tags, cache control,
file hashes and previous id. -/
theorem id_function_of_bucket_glob_prefix_witness :
    s3extraImmutableAssets.id dataPlain = s3extraImmutableAssets.id dataTagged ∧
    s3extraImmutableAssets.id dataPlain =
      EncodeToString (Sum256 (bytes
        (dataPlain.Bucket.Value ++ "-" ++ dataPlain.Glob.Value ++ "-" ++
          dataPlain.Prefix.Value))) ∧
    (s3extraImmutableAssets.id dataPlain).length = 64 ∧
    ∀ c ∈ (s3extraImmutableAssets.id dataPlain).toList, c ∈ "0123456789abcdef".toList :=
  id_function_of_bucket_glob_prefix dataPlain dataTagged rfl rfl rfl

/-- C4: when two records differ in exactly one of bucket, glob and prefix, the strings that
`id` hashes differ, and so do their bytes; unless SHA-256 collides on those two byte strings,
the identities differ. -/
theorem id_sensitive_to_each_field (d1 d2 : s3extraImmutableAssetsData)
    (h : (d1.Bucket.Value ≠ d2.Bucket.Value ∧ d1.Glob.Value = d2.Glob.Value ∧
            d1.Prefix.Value = d2.Prefix.Value) ∨
         (d1.Bucket.Value = d2.Bucket.Value ∧ d1.Glob.Value ≠ d2.Glob.Value ∧
            d1.Prefix.Value = d2.Prefix.Value) ∨
         (d1.Bucket.Value = d2.Bucket.Value ∧ d1.Glob.Value = d2.Glob.Value ∧
            d1.Prefix.Value ≠ d2.Prefix.Value)) :
    idString d1 ≠ idString d2 ∧
    bytes (idString d1) ≠ bytes (idString d2) ∧
    ((Sum256 (bytes (idString d1)) = Sum256 (bytes (idString d2)) →
        bytes (idString d1) = bytes (idString d2)) →
      s3extraImmutableAssets.id d1 ≠ s3extraImmutableAssets.id d2) := by
  have hne : idString d1 ≠ idString d2 := by
    intro heq
    have hd := congrArg String.data heq
    rw [idString_data, idString_data] at hd
    rcases h with ⟨hb, hg, hp⟩ | ⟨hb, hg, hp⟩ | ⟨hb, hg, hp⟩
    · rw [hg, hp] at hd
      exact hb (String.ext (List.append_cancel_right hd))
    · rw [hb, hp] at hd
      have h1 := List.cons_injective (List.append_cancel_left hd)
      exact hg (String.ext (List.append_cancel_right h1))
    · rw [hb, hg] at hd
      have h1 := List.cons_injective (List.append_cancel_left hd)
      have h2 := List.cons_injective (List.append_cancel_left h1)
      exact hp (String.ext h2)
  have hbytes : bytes (idString d1) ≠ bytes (idString d2) := fun hb => hne (bytes_inj _ _ hb)
  refine ⟨hne, hbytes, ?_⟩
  intro hfree hid
  apply hbytes
  apply hfree
  exact EncodeToString_inj _ _ (Sum256_lt _) (Sum256_lt _) hid

/-- C4 at bucket "B", glob "**/*.txt", prefix "" against prefix "updated": the two
identities are different. -/
theorem id_sensitive_to_each_field_witness :
    s3extraImmutableAssets.id dataPlain ≠ s3extraImmutableAssets.id dataUpdated :=
  (id_sensitive_to_each_field dataPlain dataUpdated
    (Or.inr (Or.inr ⟨rfl, rfl, by decide⟩))).2.2
    (fun hsum => absurd hsum (by decide))

/-- C5: at bucket "assets-prod" with glob "*.js" and bucket "assets" with glob "prod-*.js"
the attribute combinations differ, yet `id` hashes the same string and returns the same
identity. -/
theorem id_shared_by_distinct_combinations :
    (dataAssetsProd.Bucket.Value, dataAssetsProd.Glob.Value, dataAssetsProd.Prefix.Value) ≠
      (dataAssets.Bucket.Value, dataAssets.Glob.Value, dataAssets.Prefix.Value) ∧
    idString dataAssetsProd = idString dataAssets ∧
    s3extraImmutableAssets.id dataAssetsProd = s3extraImmutableAssets.id dataAssets := by
  have h : idString dataAssetsProd = idString dataAssets := by decide
  refine ⟨by decide, h, ?_⟩
  simp only [s3extraImmutableAssets.id, h]

end S3Extra
